import Mathlib

/-!
Verification development for the PII anonymization service ("Data Privacy Vault").

The JavaScript source (server entry point) is shallowly embedded below:

* strings are embedded as `List Char` (`Str`);
* the JavaScript regular expressions used for PII detection are compiled by hand
  into explicit scanners that reproduce the engine's leftmost, greedy,
  backtracking semantics (with ASCII word-boundary semantics, as in JS);
* SHA-256 is implemented over `Nat` with explicit reduction modulo `2 ^ 32`;
* the mutable module-level caches (`tokenCache`, `reverseTokenCache`) together
  with the MongoDB collection of token documents become an explicit state
  record (`VaultState`) threaded through the operations;
* `async` functions become pure state-passing functions; MongoDB availability
  is the `dbConnected` flag, and the collection is a list of records.
-/

set_option maxRecDepth 1000000

namespace Vault

/-- Strings of the embedded program: lists of characters. -/
abbrev Str := List Char

/-! ## Character classes (JS semantics, ASCII `\w`/`\b`) -/

/-- JS `\w` (ASCII): letters, digits, underscore.  `\b` is defined from it. -/
def isWordChar (c : Char) : Bool :=
  (('A' ≤ c && c ≤ 'Z') || ('a' ≤ c && c ≤ 'z') || ('0' ≤ c && c ≤ '9') || c = '_')

/-- JS `\s` as relevant here: space, tab, newline, carriage return, form feed,
vertical tab. -/
def isSpaceChar (c : Char) : Bool :=
  (c = ' ' || c = '\t' || c = '\n' || c = '\r' || c = '\x0c' || c = '\x0b')

/-- JS `\d`. -/
def isDigitChar (c : Char) : Bool := ('0' ≤ c && c ≤ '9')

def isUpperAZ (c : Char) : Bool := ('A' ≤ c && c ≤ 'Z')

def isLowerAZ (c : Char) : Bool := ('a' ≤ c && c ≤ 'z')

def isAsciiLetter (c : Char) : Bool := (isUpperAZ c || isLowerAZ c)

/-- JS `\b` between a previous character (`none` = string edge) and a next
character (`none` = string edge): the two sides differ in wordness. -/
def isBoundary (prev next : Option Char) : Bool :=
  (prev.elim false isWordChar) != (next.elim false isWordChar)

/-! ## `String.prototype.toLowerCase`

Embedded as a character-wise map over the case pairs that can occur in this
service's inputs (ASCII letters and the accented letters appearing in the
source's regular expressions). -/

/-- Uppercase/lowercase pairs for the embedded `toLowerCase`. -/
def casePairs : List (Char × Char) :=
  [ ('A', 'a'), ('B', 'b'), ('C', 'c'), ('D', 'd'), ('E', 'e'), ('F', 'f'),
    ('G', 'g'), ('H', 'h'), ('I', 'i'), ('J', 'j'), ('K', 'k'), ('L', 'l'),
    ('M', 'm'), ('N', 'n'), ('O', 'o'), ('P', 'p'), ('Q', 'q'), ('R', 'r'),
    ('S', 's'), ('T', 't'), ('U', 'u'), ('V', 'v'), ('W', 'w'), ('X', 'x'),
    ('Y', 'y'), ('Z', 'z'),
    ('Á', 'á'), ('É', 'é'), ('Í', 'í'), ('Ó', 'ó'), ('Ú', 'ú'), ('Ñ', 'ñ'),
    ('Ü', 'ü') ]

def jsLowerChar (c : Char) : Char := (casePairs.lookup c).getD c

/-- `value.toLowerCase()`. -/
def jsToLower (s : Str) : Str := s.map jsLowerChar

/-- Case-insensitive character comparison, as used by the `i` regex flag. -/
def eqCI (a b : Char) : Bool := jsLowerChar a = jsLowerChar b

/-! ## Basic string operations -/

/-- `text.replace(pat, rep)` with a plain-string pattern: replaces the first
occurrence only; returns the text unchanged when the pattern does not occur. -/
def replaceFirst (s pat rep : Str) : Str :=
  match s with
  | [] => if pat = [] then rep else []
  | c :: cs =>
    if pat.isPrefixOf (c :: cs) then rep ++ (c :: cs).drop pat.length
    else c :: replaceFirst cs pat rep

/-- Substring test (`text.includes(pat)`). -/
def containsSub (s pat : Str) : Bool :=
  match s with
  | [] => pat.isEmpty
  | _ :: cs => pat.isPrefixOf s || containsSub cs pat

/-- Case-insensitive prefix test. -/
def isPrefixOfCI : Str → Str → Bool
  | [], _ => true
  | _ :: _, [] => false
  | p :: ps, c :: cs => eqCI p c && isPrefixOfCI ps cs

/-- Case-insensitive substring test (`new RegExp(escaped, 'i').test(text)`). -/
def containsSubCI (s pat : Str) : Bool :=
  match s with
  | [] => pat.isEmpty
  | _ :: cs => isPrefixOfCI pat s || containsSubCI cs pat

/-- Fuel-based worker for global literal replacement (the fuel only bounds the
recursion; `s.length + 1` steps always suffice because every step consumes at
least one character of `s`). -/
def replaceAllCSAux : Nat → Str → Str → Str → Str
  | 0, s, _, _ => s
  | _ + 1, [], _, _ => []
  | fuel + 1, c :: cs, pat, rep =>
    if pat ≠ [] && pat.isPrefixOf (c :: cs) then
      rep ++ replaceAllCSAux fuel ((c :: cs).drop pat.length) pat rep
    else c :: replaceAllCSAux fuel cs pat rep

/-- `text.replace(new RegExp(escapedLiteral, 'g'), rep)`: global replacement of
a literal pattern (the source escapes all regex metacharacters first, so the
regex denotes the literal string). -/
def replaceAllCS (s pat rep : Str) : Str := replaceAllCSAux (s.length + 1) s pat rep

/-- Fuel-based worker for global case-insensitive literal replacement. -/
def replaceAllCIAux : Nat → Str → Str → Str → Str
  | 0, s, _, _ => s
  | _ + 1, [], _, _ => []
  | fuel + 1, c :: cs, pat, rep =>
    if pat ≠ [] && isPrefixOfCI pat (c :: cs) then
      rep ++ replaceAllCIAux fuel ((c :: cs).drop pat.length) pat rep
    else c :: replaceAllCIAux fuel cs pat rep

/-- `text.replace(new RegExp(escapedLiteral, 'gi'), rep)`: global
case-insensitive replacement of a literal pattern. -/
def replaceAllCI (s pat rep : Str) : Str := replaceAllCIAux (s.length + 1) s pat rep

/-- `str.split(sep)` for a single-character separator. -/
def splitChar (sep : Char) : Str → List Str
  | [] => [[]]
  | c :: cs =>
    match splitChar sep cs with
    | [] => [[]]
    | h :: t => if c = sep then [] :: h :: t else (c :: h) :: t

/-! ## SHA-256 (`crypto.createHash('sha256')`)

32-bit machine words are embedded as `Nat` with explicit reduction modulo
`2 ^ 32`; byte strings are `List Nat` with entries below 256. -/

/-- `2 ^ 32`. -/
def M32 : Nat := 4294967296

def add32 (a b : Nat) : Nat := (a + b) % M32

/-- Right rotation of a 32-bit word. -/
def rotr32 (k x : Nat) : Nat := (x / 2 ^ k + x % 2 ^ k * 2 ^ (32 - k)) % M32

/-- Logical right shift of a 32-bit word. -/
def shr32 (k x : Nat) : Nat := x / 2 ^ k

def ch32 (x y z : Nat) : Nat := (x &&& y) ^^^ ((4294967295 ^^^ x) &&& z)

def maj32 (x y z : Nat) : Nat := (x &&& y) ^^^ (x &&& z) ^^^ (y &&& z)

def bsig0 (x : Nat) : Nat := rotr32 2 x ^^^ rotr32 13 x ^^^ rotr32 22 x

def bsig1 (x : Nat) : Nat := rotr32 6 x ^^^ rotr32 11 x ^^^ rotr32 25 x

def ssig0 (x : Nat) : Nat := rotr32 7 x ^^^ rotr32 18 x ^^^ shr32 3 x

def ssig1 (x : Nat) : Nat := rotr32 17 x ^^^ rotr32 19 x ^^^ shr32 10 x

/-- SHA-256 round constants (FIPS 180-4; rendered in decimal). -/
def sha256K : List Nat :=
  [ 1116352408, 1899447441, 3049323471, 3921009573,
    961987163, 1508970993, 2453635748, 2870763221,
    3624381080, 310598401, 607225278, 1426881987,
    1925078388, 2162078206, 2614888103, 3248222580,
    3835390401, 4022224774, 264347078, 604807628,
    770255983, 1249150122, 1555081692, 1996064986,
    2554220882, 2821834349, 2952996808, 3210313671,
    3336571891, 3584528711, 113926993, 338241895,
    666307205, 773529912, 1294757372, 1396182291,
    1695183700, 1986661051, 2177026350, 2456956037,
    2730485921, 2820302411, 3259730800, 3345764771,
    3516065817, 3600352804, 4094571909, 275423344,
    430227734, 506948616, 659060556, 883997877,
    958139571, 1322822218, 1537002063, 1747873779,
    1955562222, 2024104815, 2227730452, 2361852424,
    2428436474, 2756734187, 3204031479, 3329325298 ]

/-- SHA-256 working state: eight 32-bit words. -/
structure Hash8 where
  a : Nat
  b : Nat
  c : Nat
  d : Nat
  e : Nat
  f : Nat
  g : Nat
  h : Nat

/-- Initial hash value (FIPS 180-4; rendered in decimal). -/
def sha256H0 : Hash8 :=
  ⟨1779033703, 3144134277, 1013904242, 2773480762,
   1359893119, 2600822924, 528734635, 1541459225⟩

/-- One step of the message-schedule extension: appends word `i` (`i ≥ 16`). -/
def schedStep (w : List Nat) : List Nat :=
  w ++ [ add32 (add32 (ssig1 (w.getD (w.length - 2) 0)) (w.getD (w.length - 7) 0))
               (add32 (ssig0 (w.getD (w.length - 15) 0)) (w.getD (w.length - 16) 0)) ]

def buildSched : Nat → List Nat → List Nat
  | 0, w => w
  | n + 1, w => buildSched n (schedStep w)

/-- One compression round. -/
def sha256Round (st : Hash8) (kw : Nat × Nat) : Hash8 :=
  let t1 := add32 st.h (add32 (bsig1 st.e) (add32 (ch32 st.e st.f st.g) (add32 kw.1 kw.2)))
  let t2 := add32 (bsig0 st.a) (maj32 st.a st.b st.c)
  ⟨add32 t1 t2, st.a, st.b, st.c, add32 st.d t1, st.e, st.f, st.g⟩

/-- Compress one 64-byte block (given as 16 words) into the running hash. -/
def sha256Compress (hv : Hash8) (block : List Nat) : Hash8 :=
  let w := buildSched 48 block
  let st := (sha256K.zip w).foldl sha256Round hv
  ⟨add32 hv.a st.a, add32 hv.b st.b, add32 hv.c st.c, add32 hv.d st.d,
   add32 hv.e st.e, add32 hv.f st.f, add32 hv.g st.g, add32 hv.h st.h⟩

/-- Big-endian bytes of an `n`-byte quantity. -/
def beBytes (n v : Nat) : List Nat :=
  (List.range n).map fun i => v / 2 ^ (8 * (n - 1 - i)) % 256

/-- Group bytes into 16 big-endian 32-bit words (one 64-byte block). -/
def toWords (bs : List Nat) : List Nat :=
  (List.range 16).map fun i =>
    (bs.getD (4 * i) 0) * 16777216 + (bs.getD (4 * i + 1) 0) * 65536 +
    (bs.getD (4 * i + 2) 0) * 256 + bs.getD (4 * i + 3) 0

/-- Split a padded byte string into 64-byte blocks (fuel-bounded). -/
def chunks64Aux : Nat → List Nat → List (List Nat)
  | 0, _ => []
  | _ + 1, [] => []
  | fuel + 1, bs => bs.take 64 :: chunks64Aux fuel (bs.drop 64)

/-- SHA-256 padding: `0x80`, zeros to 56 mod 64, 8-byte big-endian bit length. -/
def sha256Pad (bs : List Nat) : List Nat :=
  bs ++ [0x80] ++ List.replicate ((120 - (bs.length + 1) % 64) % 64) 0 ++
    beBytes 8 (8 * bs.length)

/-- SHA-256 digest (32 bytes) of a byte string. -/
def sha256 (bs : List Nat) : List Nat :=
  let padded := sha256Pad bs
  let hv := ((chunks64Aux (padded.length + 1) padded).map toWords).foldl sha256Compress sha256H0
  List.flatten ([hv.a, hv.b, hv.c, hv.d, hv.e, hv.f, hv.g, hv.h].map (beBytes 4))

/-- UTF-8 encoding of one character (Node's default encoding for
`hash.update(string)`). -/
def utf8Char (c : Char) : List Nat :=
  let n := c.toNat
  if n < 0x80 then [n]
  else if n < 0x800 then [0xC0 + n / 64, 0x80 + n % 64]
  else if n < 0x10000 then [0xE0 + n / 4096, 0x80 + n / 64 % 64, 0x80 + n % 64]
  else [0xF0 + n / 262144, 0x80 + n / 4096 % 64, 0x80 + n / 64 % 64, 0x80 + n % 64]

def utf8Bytes (s : Str) : List Nat := List.flatten (s.map utf8Char)

def hexChars : Str := ("0123456789abcdef".toList)

def hexDigitChar (n : Nat) : Char := hexChars.getD (n % 16) '0'

/-- Lowercase hex rendering of a byte string (`digest('hex')`). -/
def hexOfBytes (bs : List Nat) : Str :=
  List.flatten (bs.map fun b => [hexDigitChar (b / 16), hexDigitChar b])

/-- `crypto.createHash('sha256').update(v).digest('hex').substring(0, 8)`:
the 8-character token body computed for a normalized value. -/
def shaToken (v : Str) : Str := (hexOfBytes (sha256 (utf8Bytes v))).take 8

/-! ## Data model and state

The two module-level `Map`s and the MongoDB `Token` collection become one
explicit state record.  `Map.set`/`Map.get` are embedded as association lists
where the most recent binding for a key shadows older ones. -/

/-- The closed set of PII types. -/
inductive PiiType where
  | NAME
  | EMAIL
  | PHONE
deriving DecidableEq

/-- The wire tag of a PII type. -/
def typeTag : PiiType → Str
  | .NAME => [ 'N', 'A', 'M', 'E' ]
  | .EMAIL => [ 'E', 'M', 'A', 'I', 'L' ]
  | .PHONE => [ 'P', 'H', 'O', 'N', 'E' ]

/-- `${existingType}_...` when `existingType` came from an optional lookup:
JavaScript renders a missing value as the string "undefined". -/
def typeTagOpt : Option PiiType → Str
  | some ty => typeTag ty
  | none => [ 'u', 'n', 'd', 'e', 'f', 'i', 'n', 'e', 'd' ]

/-- A persisted `Token` document (fields used by the service). -/
structure TokenRec where
  originalValue : Str
  token : Str
  ty : PiiType
  usageCount : Nat
deriving DecidableEq

/-- The service state: forward cache (`tokenCache`: normalized value → token),
reverse cache (`reverseTokenCache`: token → value and type), the MongoDB
collection, and connection status. -/
structure VaultState where
  tokenCache : List (Str × Str)
  reverseTokenCache : List (Str × (Str × PiiType))
  db : List TokenRec
  dbConnected : Bool
deriving DecidableEq

/-- Fresh state: empty caches, empty store, disconnected (in-memory mode). -/
def emptyState : VaultState := ⟨[], [], [], false⟩

/-- `Map.get`: the most recent binding wins. -/
def lookupA {α : Type} [DecidableEq α] {β : Type} (m : List (α × β)) (k : α) : Option β :=
  match m with
  | [] => none
  | (k₀, v₀) :: rest => if k = k₀ then some v₀ else lookupA rest k

/-- `Map.set`: a new binding shadows any older one. -/
def setA {α : Type} {β : Type} (m : List (α × β)) (k : α) (v : β) : List (α × β) :=
  (k, v) :: m

def lookupFwd (s : VaultState) (v : Str) : Option Str := lookupA s.tokenCache v

def lookupRev (s : VaultState) (t : Str) : Option (Str × PiiType) :=
  lookupA s.reverseTokenCache t

/-- `Token.findByOriginalValue` (the static lowercases its argument again,
which is the identity on the already-normalized values passed in). -/
def findByValue (db : List TokenRec) (v : Str) : Option TokenRec :=
  db.find? fun r => r.originalValue = jsToLower v

/-- `Token.findByToken`. -/
def findByToken (db : List TokenRec) (t : Str) : Option TokenRec :=
  db.find? fun r => r.token = t

/-- `tokenDoc.incrementUsage()`. -/
def bumpUsage (db : List TokenRec) (t : Str) : List TokenRec :=
  db.map fun r => if r.token = t then { r with usageCount := r.usageCount + 1 } else r

/-- `new Token({...}).save()`: MongoDB enforces uniqueness of `originalValue`
and `token`; a duplicate-key error is swallowed (state unchanged). -/
def saveToken (db : List TokenRec) (v tok : Str) (ty : PiiType) : List TokenRec :=
  if db.any fun r => r.originalValue = v || r.token = tok then db
  else db ++ [⟨v, tok, ty, 0⟩]

/-- `generateToken(value, type)`: returns the formatted token and the updated
state, mirroring the source's cache → MongoDB → fresh-hash cascade. -/
def generateToken (value : Str) (ty : PiiType) (s : VaultState) : Str × VaultState :=
  let normalizedValue := jsToLower value
  match lookupFwd s normalizedValue with
  | some existingToken =>
    let existingType := (lookupRev s existingToken).map Prod.snd
    (typeTagOpt existingType ++ '_' :: existingToken, s)
  | none =>
    let dbHit := if s.dbConnected then findByValue s.db normalizedValue else none
    match dbHit with
    | some doc =>
      (typeTag doc.ty ++ '_' :: doc.token,
       { s with
         tokenCache := setA s.tokenCache normalizedValue doc.token,
         reverseTokenCache :=
           setA s.reverseTokenCache doc.token (normalizedValue, doc.ty) })
    | none =>
      let token := shaToken normalizedValue
      let s' :=
        { s with
          tokenCache := setA s.tokenCache normalizedValue token,
          reverseTokenCache := setA s.reverseTokenCache token (normalizedValue, ty),
          db := if s.dbConnected then saveToken s.db normalizedValue token ty else s.db }
      (typeTag ty ++ '_' :: token, s')

/-- `extractToken`: the part after the first underscore (`split('_')[1]`),
`none` when there is no underscore. -/
def extractToken (formattedToken : Str) : Option Str :=
  let parts := splitChar '_' formattedToken
  if parts.length < 2 then none else some (parts.getD 1 [])

/-- `getTokenType`: the part before the first underscore. -/
def getTokenType (formattedToken : Str) : Option Str :=
  let parts := splitChar '_' formattedToken
  if parts.length < 2 then none else some (parts.getD 0 [])

/-- `loadTokensIntoCache`: bulk-populate both caches from the store (no-op when
disconnected). -/
def loadTokensIntoCache (s : VaultState) : VaultState :=
  if s.dbConnected then
    s.db.foldl
      (fun acc doc =>
        { acc with
          tokenCache := setA acc.tokenCache doc.originalValue doc.token,
          reverseTokenCache :=
            setA acc.reverseTokenCache doc.token (doc.originalValue, doc.ty) })
      s
  else s

/-! ## PII detection (`PII_PATTERNS`)

Each JavaScript regular expression is compiled by hand into a matcher
`tryX : Option Char → Str → Option (Str × Str)` that, given the character
before the current position and the remaining text, returns the matched text
and the remainder — reproducing the engine's greedy, backtracking behavior —
plus a generic global scan (`String.prototype.match` with the `g` flag). -/

/-- Global scan: at each position try the matcher; on success record the match
and resume immediately after it (fuel-bounded; `text.length + 1` suffices since
every step consumes at least one character). -/
def scanAux (tryAt : Option Char → Str → Option (Str × Str)) :
    Nat → Option Char → Str → List Str
  | 0, _, _ => []
  | _ + 1, _, [] => []
  | fuel + 1, prev, c :: cs =>
    match tryAt prev (c :: cs) with
    | some (m, after) => m :: scanAux tryAt fuel (m.getLast?.orElse fun _ => prev) after
    | none => scanAux tryAt fuel (some c) cs

/-- `[A-Za-z0-9._%+-]` (email local part). -/
def localChar (c : Char) : Bool :=
  isAsciiLetter c || isDigitChar c || c = '.' || c = '_' || c = '%' || c = '+' || c = '-'

/-- `[A-Za-z0-9.-]` (email domain). -/
def domainChar (c : Char) : Bool := isAsciiLetter c || isDigitChar c || c = '.' || c = '-'

/-- `[A-Z|a-z]` (email TLD; the class contains a literal bar). -/
def tldChar (c : Char) : Bool := isAsciiLetter c || c = '|'

/-- Backtracking search: the largest `n₀ ≤ n` with `p n₀` (greedy quantifier
trying longest first). -/
def searchDown (p : Nat → Bool) : Nat → Option Nat
  | 0 => none
  | n + 1 => if p (n + 1) then some (n + 1) else searchDown p n

/-- Backtracking over the domain split: `d` characters of domain, then a
literal dot, then a TLD of some length `t ≥ 2` followed by `\b`.  Tries the
longest domain first, and for each domain the longest TLD first. -/
def tryEmailDom (rest2 : Str) : Nat → Option (Nat × Nat)
  | 0 => none
  | d + 1 =>
    if rest2.getD (d + 1) '\x00' = '.' then
      let tldrest := rest2.drop (d + 2)
      match
        searchDown
          (fun t => 2 ≤ t && isBoundary (tldrest.take t).getLast? (tldrest.drop t).head?)
          (tldrest.takeWhile tldChar).length
      with
      | some t => some (d + 1, t)
      | none => tryEmailDom rest2 d
    else tryEmailDom rest2 d

/-- `/\b[A-Za-z0-9._%+-]+@[A-Za-z0-9.-]+\.[A-Z|a-z]{2,}\b/`. -/
def tryEmail (prev : Option Char) (s : Str) : Option (Str × Str) :=
  if !isBoundary prev s.head? then none
  else
    let lpart := s.takeWhile localChar
    if lpart = [] then none
    else
      match s.drop lpart.length with
      | '@' :: rest2 =>
        match tryEmailDom rest2 (rest2.takeWhile domainChar).length with
        | some (d, t) =>
          some (lpart ++ '@' :: rest2.take (d + 1 + t), rest2.drop (d + 1 + t))
        | none => none
      | _ => none

def emailMatches (msg : Str) : List Str :=
  scanAux tryEmail (msg.length + 1) none msg

/-- `[\d\s\-\(\)]`. -/
def phoneChar (c : Char) : Bool :=
  isDigitChar c || isSpaceChar c || c = '-' || c = '(' || c = ')'

/-- `/(?:\+?[\d\s\-\(\)]{10,}|\b\d{10,}\b)/`: first alternative, an optional
plus then a greedy run of at least ten phone characters; second alternative, a
word-bounded run of at least ten digits. -/
def tryPhone (prev : Option Char) (s : Str) : Option (Str × Str) :=
  let plusLen := if s.head? = some '+' then 1 else 0
  let run := (s.drop plusLen).takeWhile phoneChar
  if 10 ≤ run.length then
    some (s.take (plusLen + run.length), s.drop (plusLen + run.length))
  else if isBoundary prev s.head? then
    match
      searchDown (fun t => 10 ≤ t && isBoundary (s.take t).getLast? (s.drop t).head?)
        (s.takeWhile isDigitChar).length
    with
    | some t => some (s.take t, s.drop t)
    | none => none
  else none

def phoneMatches (msg : Str) : List Str :=
  scanAux tryPhone (msg.length + 1) none msg

/-- Greedy repetition `(?:\s+[A-Z][a-z]+)*`: collects the further capitalized
words (each segment is its whitespace plus the word) and the remainder. -/
def nameReps : Nat → Str → List Str × Str
  | 0, s => ([], s)
  | fuel + 1, s =>
    let sp := s.takeWhile isSpaceChar
    if sp = [] then ([], s)
    else
      match s.drop sp.length with
      | d :: ds =>
        if isUpperAZ d then
          let ls := ds.takeWhile isLowerAZ
          if ls = [] then ([], s)
          else
            let (more, rest) := nameReps fuel (ds.drop ls.length)
            ((sp ++ d :: ls) :: more, rest)
        else ([], s)
      | [] => ([], s)

/-- `/\b[A-Z][a-z]+(?:\s+[A-Z][a-z]+)*\b/`: a capitalized word, further
capitalized words, and a trailing word boundary; when the boundary fails after
the last repetition the engine backtracks by dropping that repetition (after
which the boundary holds, a space following). -/
def tryName (prev : Option Char) (s : Str) : Option (Str × Str) :=
  match s with
  | [] => none
  | c :: cs =>
    if !(isBoundary prev (some c) && isUpperAZ c) then none
    else
      let lowers := cs.takeWhile isLowerAZ
      if lowers = [] then none
      else
        let rest0 := cs.drop lowers.length
        let (segs, rest) := nameReps rest0.length rest0
        let full := (c :: lowers) ++ segs.flatten
        if isBoundary full.getLast? rest.head? then some (full, rest)
        else
          match segs.getLast? with
          | none => none
          | some lastSeg =>
            some ((c :: lowers) ++ segs.dropLast.flatten, lastSeg ++ rest)

def nameMatches (msg : Str) : List Str :=
  scanAux tryName (msg.length + 1) none msg

/-- `[a-f0-9]`. -/
def isHexLower (c : Char) : Bool := isDigitChar c || ('a' ≤ c && c ≤ 'f')

/-- `/(NAME|EMAIL|PHONE)_[a-f0-9]{8}/`: alternation in source order, an
underscore, then exactly eight lowercase hex characters (no word boundaries). -/
def tryTok (s : Str) : Option (Str × Str) :=
  [PiiType.NAME, PiiType.EMAIL, PiiType.PHONE].firstM fun ty =>
    let pat := typeTag ty ++ ['_']
    if pat.isPrefixOf s then
      let rest := s.drop pat.length
      let hx := rest.take 8
      if hx.length = 8 && hx.all isHexLower then some (pat ++ hx, rest.drop 8)
      else none
    else none

def tokenMatches (msg : Str) : List Str :=
  scanAux (fun _ s => tryTok s) (msg.length + 1) none msg

/-- `isValidPhone`: strip non-digits, require between 7 and 15 digits. -/
def isValidPhone (str : Str) : Bool :=
  let digits := str.filter isDigitChar
  7 ≤ digits.length && digits.length ≤ 15

/-- The `commonWords` stoplist of `isValidName`. -/
def commonWords : List Str :=
  [ "De".toList, "Del".toList, "La".toList, "El".toList, "Los".toList,
    "Las".toList, "Un".toList, "Una".toList, "Unos".toList, "Unas".toList,
    "Su".toList, "Sus".toList, "Mi".toList, "Mis".toList, "Tu".toList,
    "Tus".toList, "Nuestro".toList, "Nuestra".toList, "Nuestros".toList,
    "Nuestras".toList,
    "Con".toList, "Para".toList, "Sobre".toList, "Desde".toList,
    "Hasta".toList, "Por".toList, "En".toList, "A".toList, "Al".toList,
    "Buenos".toList, "Este".toList, "Esta".toList, "Estos".toList,
    "Estas".toList, "Ese".toList, "Esa".toList, "Esos".toList, "Esas".toList,
    "Es".toList, "Son".toList, "Era".toList, "Fue".toList, "Ha".toList,
    "Han".toList, "Resume".toList, "Resumen".toList, "Haz".toList,
    "Hace".toList,
    "Crea".toList, "Crear".toList, "Genera".toList, "Generar".toList,
    "Escribe".toList, "Escribir".toList, "Analiza".toList, "Analizar".toList,
    "The".toList, "A".toList, "An".toList, "Some".toList, "Any".toList,
    "His".toList, "Her".toList, "Their".toList, "Our".toList, "Your".toList,
    "My".toList, "Its".toList,
    "Is".toList, "Are".toList, "Was".toList, "Were".toList, "Has".toList,
    "Have".toList, "Write".toList, "Writes".toList, "Create".toList,
    "Creates".toList,
    "Generate".toList, "Generates".toList, "Analyze".toList,
    "Analyzes".toList, "Summary".toList, "Resume".toList, "Contact".toList,
    "Contacts".toList ]

/-- `isValidName`: reject stoplisted words and strings shorter than 3. -/
def isValidName (str : Str) : Bool :=
  if commonWords.contains str then false
  else if str.length < 3 then false
  else true

/-! ## Lenient name detection (`nameIndicators` and the fallback pass)

The fifteen indicator regexes share one shape: a word boundary, a literal
introducer phrase (matched case-insensitively, the patterns carry the `i`
flag), separators, then a captured name.  Under the `i` flag the "capitalized"
character classes degenerate to case-insensitive letter classes. -/

/-- The case-insensitive closure of `[a-záéíóúñ]` / `[A-ZÁÉÍÓÚÑ]`. -/
def esLetter (c : Char) : Bool :=
  isAsciiLetter c ||
    [ 'á', 'é', 'í', 'ó', 'ú', 'ñ', 'Á', 'É', 'Í', 'Ó', 'Ú', 'Ñ' ].contains c

/-- The case-insensitive closure of `[a-z]` / `[A-Z]`. -/
def enLetter (c : Char) : Bool := isAsciiLetter c

/-- Consume a literal (case-insensitively, `i` flag). -/
def litCI (lit s : Str) : Option Str :=
  if isPrefixOfCI lit s then some (s.drop lit.length) else none

/-- Consume `\s+`. -/
def sp1 (s : Str) : Option Str :=
  let r := s.takeWhile isSpaceChar
  if r = [] then none else some (s.drop r.length)

/-- Consume `[:\s]+`. -/
def colonSp1 (s : Str) : Option Str :=
  let r := s.takeWhile fun c => c = ':' || isSpaceChar c
  if r = [] then none else some (s.drop r.length)

/-- Consume one character of the class `[ao]` (case-insensitive). -/
def aoChar (s : Str) : Option Str :=
  match s with
  | c :: cs => if jsLowerChar c = 'a' || jsLowerChar c = 'o' then some cs else none
  | [] => none

/-- Greedy `(?:\s+word)+` repetitions for the capitalized-name capture: each
segment is its whitespace plus a word of at least two letters. -/
def capRepsAux (letter : Char → Bool) : Nat → Str → List Str × Str
  | 0, s => ([], s)
  | fuel + 1, s =>
    let sp := s.takeWhile isSpaceChar
    if sp = [] then ([], s)
    else
      let w := (s.drop sp.length).takeWhile letter
      if w.length < 2 then ([], s)
      else
        let (more, rest) := capRepsAux letter fuel (s.drop (sp.length + w.length))
        ((sp ++ w) :: more, rest)

/-- Capture `(W[w]+(?:\s+W[w]+)+)` (two or more words of two or more
letters). -/
def capWords2 (letter : Char → Bool) (s : Str) : Option (Str × Str) :=
  let w1 := s.takeWhile letter
  if w1.length < 2 then none
  else
    match capRepsAux letter s.length (s.drop w1.length) with
    | ([], _) => none
    | (segs, rest) => some (w1 ++ segs.flatten, rest)

/-- Capture `([w]{3,}\s+[w]{3,})` (exactly two words of three or more
letters; the capture keeps the whitespace as matched). -/
def capPair3 (letter : Char → Bool) (s : Str) : Option (Str × Str) :=
  let w1 := s.takeWhile letter
  if w1.length < 3 then none
  else
    let s1 := s.drop w1.length
    let sp := s1.takeWhile isSpaceChar
    if sp = [] then none
    else
      let w2 := (s1.drop sp.length).takeWhile letter
      if w2.length < 3 then none
      else some (w1 ++ sp ++ w2, s1.drop (sp.length + w2.length))

/-- Assemble an indicator pattern: word boundary, introducer, capture.
Returns the whole-match length (for `m.index` bookkeeping and scan resumption)
and the captured group `m[1]`. -/
def indPat (intro : Str → Option Str) (capture : Str → Option (Str × Str))
    (prev : Option Char) (s : Str) : Option (Nat × Str) :=
  if !isBoundary prev s.head? then none
  else
    match intro s with
    | none => none
    | some rest =>
      match capture rest with
      | none => none
      | some (cap, rest') => some (s.length - rest'.length, cap)

/-- The `nameIndicators` array, in source order. -/
def nameIndicators : List (Option Char → Str → Option (Nat × Str)) :=
  [ indPat (fun s =>
      (litCI ("cuyo".toList) s).bind sp1 |>.bind (litCI ("nombre".toList)) |>.bind sp1
        |>.bind (litCI ("es".toList)) |>.bind sp1) (capWords2 esLetter),
    indPat (fun s => (litCI ("llamad".toList) s).bind aoChar |>.bind sp1)
      (capWords2 esLetter),
    indPat (fun s =>
      (litCI ("de".toList) s).bind sp1 |>.bind (litCI ("nombre".toList)) |>.bind sp1)
      (capWords2 esLetter),
    indPat (fun s => (litCI ("nombre".toList) s).bind colonSp1) (capWords2 esLetter),
    indPat (fun s =>
      (litCI ("cuyo".toList) s).bind sp1 |>.bind (litCI ("nombre".toList)) |>.bind sp1
        |>.bind (litCI ("es".toList)) |>.bind sp1) (capPair3 esLetter),
    indPat (fun s => (litCI ("llamad".toList) s).bind aoChar |>.bind sp1)
      (capPair3 esLetter),
    indPat (fun s =>
      (litCI ("de".toList) s).bind sp1 |>.bind (litCI ("nombre".toList)) |>.bind sp1)
      (capPair3 esLetter),
    indPat (fun s =>
      (litCI ("whose".toList) s).bind sp1 |>.bind (litCI ("name".toList)) |>.bind sp1
        |>.bind (litCI ("is".toList)) |>.bind sp1) (capWords2 enLetter),
    indPat (fun s => (litCI ("called".toList) s).bind sp1) (capWords2 enLetter),
    indPat (fun s => (litCI ("named".toList) s).bind sp1) (capWords2 enLetter),
    indPat (fun s => (litCI ("name".toList) s).bind colonSp1) (capWords2 enLetter),
    indPat (fun s =>
      (litCI ("whose".toList) s).bind sp1 |>.bind (litCI ("name".toList)) |>.bind sp1
        |>.bind (litCI ("is".toList)) |>.bind sp1) (capPair3 enLetter),
    indPat (fun s => (litCI ("called".toList) s).bind sp1) (capPair3 enLetter),
    indPat (fun s => (litCI ("named".toList) s).bind sp1) (capPair3 enLetter),
    indPat (fun s => (litCI ("name".toList) s).bind colonSp1) (capPair3 enLetter) ]

/-- `pattern.exec` loop with the `g` flag: all matches with the index of the
whole match. -/
def scanCapAux (p : Option Char → Str → Option (Nat × Str)) :
    Nat → Option Char → Str → Nat → List (Str × Nat)
  | 0, _, _, _ => []
  | _ + 1, _, [], _ => []
  | fuel + 1, prev, c :: cs, idx =>
    match p prev (c :: cs) with
    | some (len, cap) =>
      (cap, idx) ::
        scanCapAux p fuel (((c :: cs).take len).getLast?.orElse fun _ => prev)
          ((c :: cs).drop len) (idx + len)
    | none => scanCapAux p fuel (some c) cs (idx + 1)

/-- Collect `indicatorMatches`: run every indicator pattern over the text,
keeping candidates without underscores, longer than five characters, and not
seen before (dedup on the lowercased name). -/
def collectIndicators (text : Str) : List (Str × Nat) :=
  (nameIndicators.foldl
    (fun (acc : List Str × List (Str × Nat)) pat =>
      (scanCapAux pat (text.length + 1) none text 0).foldl
        (fun (acc : List Str × List (Str × Nat)) m =>
          let cand := m.1
          if !cand.contains '_' && 5 < cand.length then
            let key := jsToLower cand
            if acc.1.contains key then acc
            else (key :: acc.1, acc.2 ++ [m])
          else acc)
        acc)
    ([], [])).2

/-- Stable insertion preserving earlier elements among equal indices. -/
def insertDesc (x : Str × Nat) : List (Str × Nat) → List (Str × Nat)
  | [] => [x]
  | y :: ys => if x.2 < y.2 then y :: insertDesc x ys else x :: y :: ys

/-- `indicatorMatches.sort((a, b) => b.index - a.index)`: stable descending
sort by match index. -/
def sortByIndexDesc : List (Str × Nat) → List (Str × Nat)
  | [] => []
  | x :: xs => insertDesc x (sortByIndexDesc xs)

/-- Process one indicator-based name: if the name still occurs (tested
case-insensitively), tokenize its lowercase form and substitute the token for
every occurrence, case-insensitively. -/
def stepIndicator (acc : Str × VaultState) (m : Str × Nat) : Str × VaultState :=
  let originalName := m.1
  if containsSubCI acc.1 originalName then
    let (token, s') := generateToken (jsToLower originalName) .NAME acc.2
    (replaceAllCI acc.1 originalName token, s')
  else acc

/-- The `stopwords` set of the broad fallback pass, in source order. -/
def stopwords : List Str :=
  [ "de".toList, "del".toList, "la".toList, "el".toList, "los".toList,
    "las".toList, "un".toList, "una".toList, "unos".toList, "unas".toList,
    "su".toList, "sus".toList, "mi".toList, "mis".toList, "tu".toList,
    "tus".toList, "nuestro".toList, "nuestra".toList, "nuestros".toList,
    "nuestras".toList,
    "vuestro".toList, "vuestra".toList, "vuestros".toList, "vuestras".toList,
    "y".toList, "para".toList, "con".toList, "sin".toList, "sobre".toList,
    "desde".toList, "hasta".toList, "por".toList, "en".toList, "a".toList,
    "al".toList,
    "oferta".toList, "trabajo".toList, "email".toList, "correo".toList,
    "telefono".toList, "teléfono".toList, "cv".toList, "resume".toList,
    "resumen".toList,
    "numero".toList, "número".toList, "numeros".toList, "números".toList,
    "celular".toList, "cel".toList, "contacto".toList, "contactos".toList,
    "habilidades".toList, "habilidad".toList, "es".toList, "son".toList,
    "esta".toList, "está".toList, "estan".toList, "están".toList,
    "haz".toList, "hace".toList, "crea".toList, "crear".toList,
    "genera".toList, "generar".toList, "escribe".toList, "escribir".toList,
    "analiza".toList, "analizar".toList, "coordina".toList,
    "coordinar".toList, "cuyo".toList, "cuya".toList, "cuyos".toList,
    "cuyas".toList,
    "nombre".toList, "nomnbre".toList, "nom".toList, "que".toList,
    "cual".toList, "cuales".toList,
    "the".toList, "a".toList, "an".toList, "some".toList, "any".toList,
    "his".toList, "her".toList, "their".toList, "our".toList, "your".toList,
    "my".toList, "its".toList,
    "and".toList, "or".toList, "but".toList, "with".toList, "from".toList,
    "for".toList, "to".toList, "in".toList, "on".toList, "at".toList,
    "by".toList,
    "email".toList, "phone".toList, "number".toList, "contact".toList,
    "skills".toList, "skill".toList, "ability".toList, "abilities".toList,
    "write".toList, "writes".toList, "create".toList, "creates".toList,
    "generate".toList, "generates".toList, "analyze".toList,
    "analyzes".toList,
    "resume".toList, "summary".toList, "summary".toList, "contact".toList,
    "contacts".toList, "whose".toList, "called".toList, "named".toList ]

/-- The `invalidFirstWords` set. -/
def invalidFirstWords : List Str :=
  [ "es".toList, "son".toList, "era".toList, "fue".toList, "ha".toList,
    "han".toList, "ser".toList, "estar".toList,
    "is".toList, "are".toList, "was".toList, "were".toList, "has".toList,
    "have".toList, "been".toList, "being".toList ]

/-- `/\b([a-záéíóúñ]{2,})\s+([a-záéíóúñ]{2,})\b/gi`: two adjacent words
of two or more letters; the trailing word boundary may shorten the second
greedy run (never below two). -/
def tryLowerSeq (prev : Option Char) (s : Str) : Option (Nat × (Str × Str)) :=
  if !isBoundary prev s.head? then none
  else
    let w1 := s.takeWhile esLetter
    if w1.length < 2 then none
    else
      let s1 := s.drop w1.length
      let sp := s1.takeWhile isSpaceChar
      if sp = [] then none
      else
        let s2 := s1.drop sp.length
        let run := s2.takeWhile esLetter
        match
          searchDown
            (fun t => 2 ≤ t && isBoundary (s2.take t).getLast? (s2.drop t).head?)
            run.length
        with
        | some t => some (w1.length + sp.length + t, (w1, s2.take t))
        | none => none

/-- All `(w1, w2)` pairs found by the broad lowercase-sequence scan. -/
def lowerSeqScan : Nat → Option Char → Str → List (Str × Str)
  | 0, _, _ => []
  | _ + 1, _, [] => []
  | fuel + 1, prev, c :: cs =>
    match tryLowerSeq prev (c :: cs) with
    | some (len, pair) =>
      pair ::
        lowerSeqScan fuel (((c :: cs).take len).getLast?.orElse fun _ => prev)
          ((c :: cs).drop len)
    | none => lowerSeqScan fuel (some c) cs

/-- The broad pass's candidate pipeline: stopword filter on either word (both
as-is and lowercased), invalid-first-word filter, minimum word length three,
and dedup of the exact candidate string (`w1 ++ " " ++ w2`). -/
def broadCandidates (text : Str) : List Str :=
  ((lowerSeqScan (text.length + 1) none text).foldl
    (fun (acc : List Str × List Str) m =>
      let w1 := m.1
      let w2 := m.2
      let cand := w1 ++ ' ' :: w2
      if stopwords.contains (jsToLower w1) || stopwords.contains (jsToLower w2) ||
          stopwords.contains w1 || stopwords.contains w2 then acc
      else if invalidFirstWords.contains (jsToLower w1) ||
          invalidFirstWords.contains w1 then acc
      else if w1.length < 3 || w2.length < 3 then acc
      else if acc.1.contains cand then acc
      else (cand :: acc.1, acc.2 ++ [cand]))
    ([], [])).2

/-- Process one broad-pass candidate: tokenize and globally substitute
(case-sensitively) when it still occurs in the text. -/
def stepBroad (acc : Str × VaultState) (cand : Str) : Str × VaultState :=
  if containsSub acc.1 cand then
    let (token, s') := generateToken cand .NAME acc.2
    (replaceAllCS acc.1 cand token, s')
  else acc

/-! ## `anonymizeMessage` and `deanonymizeMessage` -/

/-- Email loop body: tokenize and replace the first remaining occurrence. -/
def stepEmail (acc : Str × VaultState) (m : Str) : Str × VaultState :=
  let (token, s') := generateToken m .EMAIL acc.2
  (replaceFirst acc.1 m token, s')

/-- Phone loop body: candidates failing `isValidPhone` are left untouched. -/
def stepPhone (acc : Str × VaultState) (m : Str) : Str × VaultState :=
  if isValidPhone m then
    let (token, s') := generateToken m .PHONE acc.2
    (replaceFirst acc.1 m token, s')
  else acc

/-- Capitalized-name loop body: candidates failing `isValidName` are left
untouched. -/
def stepName (acc : Str × VaultState) (m : Str) : Str × VaultState :=
  if isValidName m then
    let (token, s') := generateToken m .NAME acc.2
    (replaceFirst acc.1 m token, s')
  else acc

/-- The lenient block (source steps 3.5 and the broad fallback). -/
def lenientPass (acc : Str × VaultState) : Str × VaultState :=
  let afterInd := (sortByIndexDesc (collectIndicators acc.1)).foldl stepIndicator acc
  (broadCandidates afterInd.1).foldl stepBroad afterInd

/-- `anonymizeMessage(message, { lenientNames })`: emails, then validated
phones, then validated capitalized names (all matched against the original
message), then optionally the lenient name passes. -/
def anonymizeMessage (message : Str) (lenientNames : Bool) (s : VaultState) :
    Str × VaultState :=
  let a1 := (emailMatches message).foldl stepEmail (message, s)
  let a2 := (phoneMatches message).foldl stepPhone a1
  let a3 := (nameMatches message).foldl stepName a2
  if lenientNames then lenientPass a3 else a3

/-- Token resolution inside `deanonymizeMessage`: reverse cache first, then
the store (populating both caches and bumping usage on a store hit). -/
def resolveToken (s : VaultState) (tk : Str) : Option (Str × PiiType) × VaultState :=
  match lookupRev s tk with
  | some d => (some d, s)
  | none =>
    if s.dbConnected then
      match findByToken s.db tk with
      | some doc =>
        (some (doc.originalValue, doc.ty),
         { s with
           reverseTokenCache :=
             setA s.reverseTokenCache tk (doc.originalValue, doc.ty),
           tokenCache := setA s.tokenCache doc.originalValue tk,
           db := bumpUsage s.db tk })
      | none => (none, s)
    else (none, s)

/-- Deanonymization loop body: resolvable tokens are substituted (first
remaining occurrence); unresolvable tokens are left verbatim. -/
def stepDeanon (acc : Str × VaultState) (m : Str) : Str × VaultState :=
  match extractToken m with
  | none => acc
  | some tk =>
    let (od, s') := resolveToken acc.2 tk
    match od with
    | some d => (replaceFirst acc.1 m d.1, s')
    | none => (acc.1, s')

/-- `deanonymizeMessage(anonymizedMessage)`. -/
def deanonymizeMessage (msg : Str) (s : VaultState) : Str × VaultState :=
  (tokenMatches msg).foldl stepDeanon (msg, s)

/-! ## HTTP layer (`POST /anonymize`) and operation sequences -/

/-- JSON values as relevant to `req.body.message`. -/
inductive JsVal where
  | jstr (s : Str)
  | jnum (n : Int)
  | jbool (b : Bool)
  | jnull
deriving DecidableEq

/-- JavaScript truthiness test `!message` (a missing field is `undefined`). -/
def jsFalsy : Option JsVal → Bool
  | none => true
  | some (.jstr l) => l.isEmpty
  | some (.jnum n) => n = 0
  | some (.jbool b) => !b
  | some .jnull => true

/-- The endpoint's response. -/
inductive AnonResponse where
  | badRequest (details : Str)
  | ok (anonymizedMessage : Str)
deriving DecidableEq

/-- The `POST /anonymize` handler: `!message` → 400, non-string → 400,
otherwise run `anonymizeMessage` and return the result. -/
def anonymizeEndpoint (message : Option JsVal) (s : VaultState) :
    AnonResponse × VaultState :=
  if jsFalsy message then
    (.badRequest ("Message field is required".toList), s)
  else
    match message with
    | some (.jstr m) =>
      let (out, s') := anonymizeMessage m false s
      (.ok out, s')
    | _ => (.badRequest ("Message must be a string".toList), s)

/-- The state-mutating operations of the service core. -/
inductive VaultOp where
  | gen (v : Str) (ty : PiiType)
  | deanon (msg : Str)
  | load

def runOp (s : VaultState) : VaultOp → VaultState
  | .gen v ty => (generateToken v ty s).2
  | .deanon m => (deanonymizeMessage m s).2
  | .load => loadTokensIntoCache s

def runOps (ops : List VaultOp) (s : VaultState) : VaultState := ops.foldl runOp s

/-! ## Predicates used in the statements -/

/-- `pat` occurs as a contiguous substring of `s`. -/
def OccursIn (s pat : Str) : Prop := ∃ pre post, s = pre ++ pat ++ post

/-- Forward-cache well-formedness: every cached token is the truncated digest
of its (normalized) key.  This holds in every state the service reaches, since
tokens only ever enter the caches from `generateToken`'s hash or from store
records that were created the same way. -/
def WFfwd (s : VaultState) : Prop :=
  ∀ v t, lookupFwd s v = some t → t = shaToken v

/-- Store well-formedness: every persisted token is the truncated digest of
its persisted (normalized) value. -/
def WFdb (s : VaultState) : Prop :=
  ∀ r ∈ s.db, r.token = shaToken r.originalValue

/-- Reverse-cache well-formedness. -/
def WFrev (s : VaultState) : Prop :=
  ∀ t w ty, lookupRev s t = some (w, ty) → t = shaToken w

/-- Mutual consistency of the two caches (claim C9's invariant): every forward
entry has a reverse entry pointing back at the same value, and conversely. -/
def Coherent (s : VaultState) : Prop :=
  (∀ v t, lookupFwd s v = some t → ∃ w ty, lookupRev s t = some (w, ty) ∧ w = v) ∧
  (∀ t w ty, lookupRev s t = some (w, ty) → lookupFwd s w = some t)

/-- The normalized values an operation can introduce into the caches (beyond
those already in the store). -/
def opValues : VaultOp → List Str
  | .gen v _ => [jsToLower v]
  | .deanon _ => []
  | .load => []

/-- All normalized values that a run over `ops` from a store `db` can ever
cache or persist. -/
def seedValues (ops : List VaultOp) (db : List TokenRec) : List Str :=
  db.map TokenRec.originalValue ++ (ops.map opValues).flatten

/-- No two of the given values collide after digest truncation. -/
def InjOnVals (vals : List Str) : Prop :=
  ∀ v₁ ∈ vals, ∀ v₂ ∈ vals, shaToken v₁ = shaToken v₂ → v₁ = v₂

/-- Every persisted value is already lowercase. -/
def LowerDb (db : List TokenRec) : Prop :=
  ∀ r ∈ db, jsToLower r.originalValue = r.originalValue

/-- Every reverse-cache value is already lowercase. -/
def LowerRev (s : VaultState) : Prop :=
  ∀ t w ty, lookupRev s t = some (w, ty) → jsToLower w = w

/-- Client-error discriminator for the endpoint response. -/
def isClientError : AnonResponse → Bool
  | .badRequest _ => true
  | .ok _ => false

/-- No occurrence of `pat` starts before position `k` of `t` (so the
occurrence at `k`, when `t = t.take k ++ pat ++ …`, is the first one that
`String.prototype.replace` finds). -/
def NoEarlierOcc (t pat : Str) (k : Nat) : Prop :=
  ∀ i < k, ¬pat.isPrefixOf (t.drop i) = true

/-- Both caches and the store carry only digest-derived tokens for values
drawn from `V` (the values a given run can ever process). -/
def CacheVals (s : VaultState) (V : List Str) : Prop :=
  (∀ v t, lookupFwd s v = some t → t = shaToken v ∧ v ∈ V) ∧
  (∀ t w ty, lookupRev s t = some (w, ty) → t = shaToken w ∧ w ∈ V) ∧
  (∀ r ∈ s.db, r.token = shaToken r.originalValue ∧ r.originalValue ∈ V)

/-- A concrete state whose caches hold "ana" as an EMAIL. -/
def mismatchState : VaultState :=
  ⟨[(("ana".toList), ("24d4b96f".toList))],
   [(("24d4b96f".toList), (("ana".toList), .EMAIL))], [], false⟩

/-! ## Supporting lemmas -/

theorem isPrefixOf_iff_exists (p s : Str) : p.isPrefixOf s = true ↔ ∃ t, p ++ t = s := by
  induction p generalizing s with
  | nil => simp [List.isPrefixOf]
  | cons a ps ih =>
    cases s with
    | nil => simp [List.isPrefixOf]
    | cons b bs =>
      rw [List.isPrefixOf]
      constructor
      · intro h
        rw [Bool.and_eq_true] at h
        have hab : a = b := by
          have := h.1
          simpa using this
        obtain ⟨t, ht⟩ := (ih bs).mp h.2
        exact ⟨t, by rw [List.cons_append, ht, hab]⟩
      · rintro ⟨t, ht⟩
        rw [List.cons_append] at ht
        injection ht with h1 h2
        rw [Bool.and_eq_true]
        exact ⟨by simp [h1], (ih bs).mpr ⟨t, h2⟩⟩

theorem lookupA_set_self {α β : Type} [DecidableEq α] (m : List (α × β)) (k : α) (v : β) :
    lookupA (setA m k v) k = some v := by
  simp [lookupA, setA]

theorem lookupA_set_ne {α β : Type} [DecidableEq α] (m : List (α × β)) (k k' : α) (v : β)
    (h : k' ≠ k) : lookupA (setA m k v) k' = lookupA m k' := by
  simp [lookupA, setA, h]

theorem lookupA_nil {α β : Type} [DecidableEq α] (k : α) :
    lookupA ([] : List (α × β)) k = none := rfl

/-- A successful `lookup` comes from a pair of the list. -/
theorem lookup_mem_pairs {α β : Type} [BEq α] (l : List (α × β)) (k : α) (v : β)
    (h : l.lookup k = some v) : ∃ k', (k', v) ∈ l ∧ (k == k') = true := by
  induction l with
  | nil => simp [List.lookup] at h
  | cons p ps ih =>
    rw [List.lookup] at h
    cases hk : (k == p.1) with
    | true =>
      rw [hk] at h
      simp only [Option.some_inj] at h
      exact ⟨p.1, by simp [← h, hk], hk⟩
    | false =>
      rw [hk] at h
      obtain ⟨k', hm, he⟩ := ih h
      exact ⟨k', List.mem_cons_of_mem _ hm, he⟩

/-- Lowercasing is idempotent character-wise. -/
theorem jsLowerChar_idem (c : Char) : jsLowerChar (jsLowerChar c) = jsLowerChar c := by
  unfold jsLowerChar
  cases h : casePairs.lookup c with
  | none => simp [h]
  | some l =>
    obtain ⟨k', hm, he⟩ := lookup_mem_pairs _ _ _ h
    have hall : ∀ p ∈ casePairs, casePairs.lookup p.2 = none := by decide
    simp [hall (k', l) hm]

/-- `toLowerCase` is idempotent. -/
theorem jsToLower_idem (s : Str) : jsToLower (jsToLower s) = jsToLower s := by
  simp [jsToLower, Function.comp_def, jsLowerChar_idem]

theorem splitChar_ne_nil (sep : Char) (s : Str) : splitChar sep s ≠ [] := by
  cases s with
  | nil => simp [splitChar]
  | cons c cs =>
    rw [splitChar]
    cases h : splitChar sep cs with
    | nil => simp
    | cons h t =>
      by_cases hc : c = sep <;> simp [hc]

theorem splitChar_no_sep (sep : Char) (s : Str) (h : sep ∉ s) :
    splitChar sep s = [s] := by
  induction s with
  | nil => rfl
  | cons c cs ih =>
    have hc : c ≠ sep := fun he => h (he ▸ List.mem_cons_self c cs)
    have hcs : sep ∉ cs := fun hm => h (List.mem_cons_of_mem _ hm)
    rw [splitChar, ih hcs]
    simp [hc]

theorem splitChar_append_sep (sep : Char) (a b : Str) (ha : sep ∉ a) :
    splitChar sep (a ++ sep :: b) = a :: splitChar sep b := by
  induction a with
  | nil =>
    rw [List.nil_append, splitChar]
    cases h : splitChar sep b with
    | nil => exact absurd h (splitChar_ne_nil sep b)
    | cons h t => simp
  | cons c a' ih =>
    have hc : c ≠ sep := fun he => ha (he ▸ List.mem_cons_self c a')
    have ha' : sep ∉ a' := fun hm => ha (List.mem_cons_of_mem _ hm)
    rw [List.cons_append, splitChar, ih ha']
    simp [hc]

/-- Splitting a well-formed `tag_body` recovers the body after the first
underscore. -/
theorem extractToken_tagged (tag body : Str) (ht : '_' ∉ tag) (hb : '_' ∉ body) :
    extractToken (tag ++ '_' :: body) = some body := by
  unfold extractToken
  rw [splitChar_append_sep _ _ _ ht, splitChar_no_sep _ _ hb]
  rfl

theorem mem_shaToken_hex (v : Str) (c : Char) (h : c ∈ shaToken v) : c ∈ hexChars := by
  unfold shaToken at h
  have h1 : c ∈ hexOfBytes (sha256 (utf8Bytes v)) := List.mem_of_mem_take h
  unfold hexOfBytes at h1
  rw [List.mem_flatten] at h1
  obtain ⟨l, hl, hc⟩ := h1
  rw [List.mem_map] at hl
  obtain ⟨b, _, rfl⟩ := hl
  have : ∀ n : Nat, hexDigitChar n ∈ hexChars := by
    intro n
    unfold hexDigitChar
    have hlt : n % 16 < hexChars.length := Nat.mod_lt _ (by decide)
    rw [List.getD_eq_getElem _ _ hlt]
    exact List.getElem_mem hlt
  simp only [List.mem_cons, List.not_mem_nil, or_false] at hc
  rcases hc with h | h
  · exact h ▸ this _
  · exact h ▸ this _

theorem shaToken_no_underscore (v : Str) : '_' ∉ shaToken v := by
  intro h
  have := mem_shaToken_hex v _ h
  revert this
  decide

theorem typeTag_no_underscore (ty : PiiType) : '_' ∉ typeTag ty := by
  cases ty <;> decide

theorem typeTagOpt_no_underscore (o : Option PiiType) : '_' ∉ typeTagOpt o := by
  rcases o with _ | ty
  · decide
  · cases ty <;> decide

/-! ### `generateToken` structure -/

/-- On a forward-cache hit, `generateToken` returns the cached token under the
type found in the reverse cache (the string "undefined" when absent) and does
not change the state. -/
theorem generateToken_cacheHit (s : VaultState) (v : Str) (ty : PiiType) (tk : Str)
    (h : lookupFwd s (jsToLower v) = some tk) :
    generateToken v ty s =
      (typeTagOpt ((lookupRev s tk).map Prod.snd) ++ '_' :: tk, s) := by
  simp only [generateToken, h]

/-- In any well-formed state the token body returned by `generateToken` is the
truncated digest of the lowercased value, well-formedness is preserved, and the
forward cache afterwards holds that binding. -/
theorem generateToken_spec (s : VaultState) (v : Str) (ty : PiiType)
    (hf : WFfwd s) (hd : WFdb s) :
    extractToken (generateToken v ty s).1 = some (shaToken (jsToLower v)) ∧
    WFfwd (generateToken v ty s).2 ∧ WFdb (generateToken v ty s).2 ∧
    lookupFwd (generateToken v ty s).2 (jsToLower v) = some (shaToken (jsToLower v)) := by
  cases h : lookupFwd s (jsToLower v) with
  | some tk =>
    have htk : tk = shaToken (jsToLower v) := hf _ _ h
    rw [generateToken_cacheHit s v ty tk h]
    subst htk
    exact ⟨extractToken_tagged _ _ (typeTagOpt_no_underscore _) (shaToken_no_underscore _),
      hf, hd, h⟩
  | none =>
    simp only [generateToken, h]
    cases hdb : (if s.dbConnected then findByValue s.db (jsToLower v) else none) with
    | some doc =>
      have hmem : doc ∈ s.db ∧ doc.originalValue = jsToLower (jsToLower v) := by
        by_cases hc : s.dbConnected
        · rw [if_pos hc] at hdb
          exact ⟨List.mem_of_find?_eq_some hdb, by
            have := List.find?_some hdb
            simpa using this⟩
        · rw [if_neg hc] at hdb
          exact absurd hdb (by simp)
      have hval : doc.originalValue = jsToLower v := by
        rw [hmem.2, jsToLower_idem]
      have htok : doc.token = shaToken (jsToLower v) := by
        rw [hd doc hmem.1, hval]
      simp only [hdb]
      refine ⟨?_, ?_, ?_, ?_⟩
      · rw [htok]
        exact extractToken_tagged _ _ (typeTag_no_underscore _) (shaToken_no_underscore _)
      · intro w t hw
        by_cases hwv : w = jsToLower v
        · subst hwv
          rw [lookupFwd, lookupA_set_self] at hw
          rw [← Option.some_inj.mp hw, htok]
        · rw [lookupFwd, lookupA_set_ne _ _ _ _ hwv] at hw
          exact hf _ _ hw
      · exact hd
      · rw [lookupFwd, lookupA_set_self, htok]
    | none =>
      simp only [hdb]
      refine ⟨?_, ?_, ?_, ?_⟩
      · exact extractToken_tagged _ _ (typeTag_no_underscore _) (shaToken_no_underscore _)
      · intro w t hw
        by_cases hwv : w = jsToLower v
        · subst hwv
          rw [lookupFwd, lookupA_set_self] at hw
          exact (Option.some_inj.mp hw).symm
        · rw [lookupFwd, lookupA_set_ne _ _ _ _ hwv] at hw
          exact hf _ _ hw
      · intro r hr
        by_cases hc : s.dbConnected
        · rw [if_pos hc] at hr
          unfold saveToken at hr
          by_cases hdup : s.db.any fun r => r.originalValue = jsToLower v ||
              r.token = shaToken (jsToLower v)
          · rw [if_pos hdup] at hr
            exact hd r hr
          · rw [if_neg hdup] at hr
            rcases List.mem_append.mp hr with hold | hnew
            · exact hd r hold
            · simp only [List.mem_singleton] at hnew
              subst hnew
              rfl
        · rw [if_neg hc] at hr
          exact hd r hr
      · rw [lookupFwd, lookupA_set_self]

theorem WFfwd_empty : WFfwd emptyState := by
  intro v t h
  simp [lookupFwd, lookupA, emptyState] at h

theorem WFdb_empty : WFdb emptyState := by
  intro r hr
  simp [emptyState] at hr

/-! ## Claim C2 -/

/-- C2: in every well-formed state, the token body `generateToken` returns for
a value is the first eight lowercase-hex characters of the SHA-256 digest of
the lowercased value (`shaToken (jsToLower v)`); consequently a second call
(with any requested type) for a value with the same lowercased form — in
particular, a repeated call with the very same value, or a call with a value
differing only in letter case — returns the identical token body. -/
theorem C2_token_is_truncated_digest (s : VaultState) (v₁ v₂ : Str)
    (ty₁ ty₂ : PiiType) (hf : WFfwd s) (hd : WFdb s)
    (hcase : jsToLower v₁ = jsToLower v₂) :
    extractToken (generateToken v₁ ty₁ s).1 = some (shaToken (jsToLower v₁)) ∧
    extractToken (generateToken v₂ ty₂ (generateToken v₁ ty₁ s).2).1 =
      some (shaToken (jsToLower v₁)) := by
  obtain ⟨h1, hf', hd', _⟩ := generateToken_spec s v₁ ty₁ hf hd
  obtain ⟨h2, _, _, _⟩ := generateToken_spec (generateToken v₁ ty₁ s).2 v₂ ty₂ hf' hd'
  exact ⟨h1, by rw [h2, ← hcase]⟩

/-- Witness for C2 at a concrete input: the state is fresh, the two values
differ only in case, and both calls return the digest-derived token body. -/
theorem C2_token_is_truncated_digest_witness :
    (jsToLower ("Ana".toList) = jsToLower ("ANA".toList)) ∧
    (extractToken (generateToken ("Ana".toList) .NAME emptyState).1 =
        some (shaToken (jsToLower ("Ana".toList))) ∧
      extractToken
          (generateToken ("ANA".toList) .EMAIL
            (generateToken ("Ana".toList) .NAME emptyState).2).1 =
        some (shaToken (jsToLower ("Ana".toList)))) :=
  ⟨by decide,
   C2_token_is_truncated_digest emptyState ("Ana".toList) ("ANA".toList) .NAME .EMAIL
     WFfwd_empty WFdb_empty (by decide)⟩

/-! ## Claim C7 -/

/-- C7: when the requested value is already cached (its lowercased form has a
forward-cache entry) under a different PII type than the one requested,
`generateToken` returns normally (no failure — the function is total and
returns a formatted token), the formatted token is built from the *stored*
type, not the requested one, and the state is unchanged. -/
theorem C7_stored_type_wins (s : VaultState) (v tk w : Str) (ty ty' : PiiType)
    (hfwd : lookupFwd s (jsToLower v) = some tk)
    (hrev : lookupRev s tk = some (w, ty')) (_hne : ty' ≠ ty) :
    generateToken v ty s = (typeTag ty' ++ '_' :: tk, s) := by
  rw [generateToken_cacheHit s v ty tk hfwd, hrev]
  rfl

/-! ## Claim C8 -/

/-- C8 counterexample: the empty string is a present, string-typed message,
yet the endpoint rejects it with a client error (the truthiness check `
!message` fires on the empty string), so rejection is not limited to
missing or non-string messages. -/
theorem C8_counterexample :
    isClientError (anonymizeEndpoint (some (.jstr [])) emptyState).1 = true ∧
    (∃ m : Str, some (JsVal.jstr []) = some (.jstr m)) ∧
    anonymizeEndpoint (some (.jstr [])) emptyState =
      (.badRequest ("Message field is required".toList), emptyState) :=
  ⟨by decide, ⟨[], rfl⟩, by decide⟩

/-- C8 (amended): the endpoint rejects with a client error exactly when the
message is missing, not a string, or the *empty* string (JavaScript
truthiness); every nonempty string reaches `anonymizeMessage` and an `ok`
response carrying its result is returned. -/
theorem C8_validation_behavior (body : Option JsVal) (s : VaultState) :
    (isClientError (anonymizeEndpoint body s).1 = true ↔
      ¬∃ m : Str, body = some (.jstr m) ∧ m ≠ []) ∧
    (∀ m : Str, body = some (.jstr m) → m ≠ [] →
      anonymizeEndpoint body s =
        (.ok (anonymizeMessage m false s).1, (anonymizeMessage m false s).2)) := by
  constructor
  · cases body with
    | none => simp [anonymizeEndpoint, jsFalsy, isClientError]
    | some jv =>
      cases jv with
      | jstr l =>
        cases l with
        | nil => simp [anonymizeEndpoint, jsFalsy, isClientError]
        | cons c cs => simp [anonymizeEndpoint, jsFalsy, isClientError]
      | jnum n =>
        by_cases hn : n = 0 <;> simp [anonymizeEndpoint, jsFalsy, isClientError, hn]
      | jbool b => cases b <;> simp [anonymizeEndpoint, jsFalsy, isClientError]
      | jnull => simp [anonymizeEndpoint, jsFalsy, isClientError]
  · intro m hm hne
    subst hm
    cases m with
    | nil => exact absurd rfl hne
    | cons c cs => simp [anonymizeEndpoint, jsFalsy]

/-- Witness for C8's amended statement: a concrete nonempty string passes
validation and is anonymized. -/
theorem C8_validation_behavior_witness :
    anonymizeEndpoint (some (.jstr ("Hi".toList))) emptyState =
      (.ok (anonymizeMessage ("Hi".toList) false emptyState).1,
       (anonymizeMessage ("Hi".toList) false emptyState).2) :=
  (C8_validation_behavior (some (.jstr ("Hi".toList))) emptyState).2
    ("Hi".toList) rfl (by decide)

/-! ## Claim C3 -/

/-- C3 counterexample: the spec's "no PII" example is not returned unchanged —
the sentence-initial "This" matches the capitalized-name pattern, passes
`isValidName` (it is not on the stoplist and has more than two characters),
and is tokenized. -/
theorem C3_counterexample :
    (anonymizeMessage ("This message contains no personal information.".toList)
        false emptyState).1 ≠
      ("This message contains no personal information.".toList) := by
  decide

/-- C3 (amended): anonymizing the spec's example yields the input with "This"
replaced by the NAME token of "this" (`NAME_1eb79602`), the caches recording
that mapping; no email or phone is detected. -/
theorem C3_false_positive_this :
    anonymizeMessage ("This message contains no personal information.".toList)
        false emptyState =
      (("NAME_1eb79602 message contains no personal information.".toList),
       ⟨[(("this".toList), ("1eb79602".toList))],
        [(("1eb79602".toList), (("this".toList), .NAME))], [], false⟩) := by
  decide

/-! ## Claim C6 -/

/-- C6 counterexample: with `lenientNames:true` the value "maria garcia" is
*not* the value that gets tokenized — no forward-cache entry is created for
it — and the output is not the input with "maria garcia" replaced by its NAME
token (`NAME_f50eb080`): the `nombre[:\s]+` indicator pattern captures
"es maria garcia" instead. -/
theorem C6_counterexample :
    lookupFwd (anonymizeMessage ("cuyo nombre es maria garcia".toList) true
        emptyState).2 ("maria garcia".toList) = none ∧
    (anonymizeMessage ("cuyo nombre es maria garcia".toList) true emptyState).1 ≠
      ("cuyo nombre es NAME_f50eb080".toList) := by
  constructor
  · decide
  · decide

/-- C6 (amended): with `lenientNames:true`, the indicator pattern
`\bnombre[:\s]+(…)` (matched case-insensitively) captures "es maria garcia" —
including the verb "es" — which is tokenized as NAME and replaced, yielding
"cuyo nombre NAME_0fbf2239"; with `lenientNames:false` the input is returned
unchanged with an unchanged state. -/
theorem C6_lenient_behavior :
    anonymizeMessage ("cuyo nombre es maria garcia".toList) true emptyState =
      (("cuyo nombre NAME_0fbf2239".toList),
       ⟨[(("es maria garcia".toList), ("0fbf2239".toList))],
        [(("0fbf2239".toList), (("es maria garcia".toList), .NAME))], [], false⟩) ∧
    anonymizeMessage ("cuyo nombre es maria garcia".toList) false emptyState =
      (("cuyo nombre es maria garcia".toList), emptyState) := by
  constructor
  · decide
  · decide

/-! ## Claim C4 -/

/-- C4: deanonymization fails open.  For any text in which every well-formed
token match is unresolvable — absent from the reverse cache and from the
store — `deanonymizeMessage` returns the text completely unchanged (every such
token left verbatim) with an unchanged state, and (being a total function)
raises no error. -/
theorem C4_unknown_token_fail_open (t : Str) (s : VaultState)
    (h : ∀ m ∈ tokenMatches t, ∀ tk, extractToken m = some tk →
      lookupRev s tk = none ∧ findByToken s.db tk = none) :
    deanonymizeMessage t s = (t, s) := by
  unfold deanonymizeMessage
  have haux : ∀ ms : List Str,
      (∀ m ∈ ms, ∀ tk, extractToken m = some tk →
        lookupRev s tk = none ∧ findByToken s.db tk = none) →
      ms.foldl stepDeanon (t, s) = (t, s) := by
    intro ms
    induction ms with
    | nil => intro _; rfl
    | cons m ms ih =>
      intro hm
      have hstep : stepDeanon (t, s) m = (t, s) := by
        unfold stepDeanon
        cases he : extractToken m with
        | none => rfl
        | some tk =>
          obtain ⟨hrev, hdb⟩ := hm m (List.mem_cons_self m ms) tk he
          by_cases hc : s.dbConnected <;>
            simp [resolveToken, hrev, hdb, hc]
      rw [List.foldl_cons, hstep]
      exact ih fun m' hm' => hm m' (List.mem_cons_of_mem _ hm')
  exact haux (tokenMatches t) h

/-- Witness for C4 at a concrete input: "NAME_deadbeef" was never issued and
the fresh state resolves nothing, so the text survives verbatim. -/
theorem C4_unknown_token_fail_open_witness :
    deanonymizeMessage ("hello NAME_deadbeef world".toList) emptyState =
      (("hello NAME_deadbeef world".toList), emptyState) :=
  C4_unknown_token_fail_open ("hello NAME_deadbeef world".toList) emptyState
    (by decide)

/-! ### Scanner support lemmas (for C5) -/

theorem searchDown_some (p : Nat → Bool) (n t : Nat) (h : searchDown p n = some t) :
    p t = true ∧ t ≤ n := by
  induction n with
  | zero => simp [searchDown] at h
  | succ k ih =>
    rw [searchDown] at h
    by_cases hp : p (k + 1)
    · rw [if_pos hp] at h
      cases h
      exact ⟨hp, Nat.le_refl _⟩
    · rw [if_neg hp] at h
      obtain ⟨h1, h2⟩ := ih h
      exact ⟨h1, Nat.le_succ_of_le h2⟩

theorem takeWhile_append_drop {α : Type} (p : α → Bool) (l : List α) :
    l.takeWhile p ++ l.drop (l.takeWhile p).length = l := by
  induction l with
  | nil => rfl
  | cons c cs ih =>
    rw [List.takeWhile_cons]
    by_cases hp : p c
    · simp [hp, ih]
    · simp [hp]

theorem take_takeWhile {α : Type} (p : α → Bool) (l : List α) :
    l.take (l.takeWhile p).length = l.takeWhile p := by
  induction l with
  | nil => rfl
  | cons c cs ih =>
    rw [List.takeWhile_cons]
    by_cases hp : p c
    · simp [hp, ih, List.takeWhile_cons]
    · simp [hp, List.takeWhile_cons]

theorem mem_takeWhile_pred {α : Type} (p : α → Bool) (l : List α) (a : α)
    (h : a ∈ l.takeWhile p) : p a = true := by
  induction l with
  | nil => simp [List.takeWhile] at h
  | cons c cs ih =>
    rw [List.takeWhile_cons] at h
    by_cases hp : p c
    · rw [if_pos hp] at h
      rcases List.mem_cons.mp h with rfl | h'
      · exact hp
      · exact ih h'
    · rw [if_neg hp] at h
      simp at h

theorem mem_take_of_le_takeWhile {α : Type} (p : α → Bool) (l : List α) (t : Nat)
    (ht : t ≤ (l.takeWhile p).length) (a : α) (h : a ∈ l.take t) : p a = true := by
  have h1 : l.take t = (l.takeWhile p).take t := by
    conv_lhs => rw [← takeWhile_append_drop p l]
    rw [List.take_append_eq_append_take, Nat.sub_eq_zero_of_le ht, List.take_zero,
      List.append_nil]
  rw [h1] at h
  exact mem_takeWhile_pred p l a (List.mem_of_mem_take h)

theorem occursIn_of_eq_append (s m after : Str) (h : s = m ++ after) : OccursIn s m :=
  ⟨[], after, by simp [h]⟩

theorem occursIn_cons (c : Char) (s m : Str) (h : OccursIn s m) : OccursIn (c :: s) m := by
  obtain ⟨pre, post, rfl⟩ := h
  exact ⟨c :: pre, post, rfl⟩

theorem occursIn_append_left (u s m : Str) (h : OccursIn s m) : OccursIn (u ++ s) m := by
  obtain ⟨pre, post, rfl⟩ := h
  exact ⟨u ++ pre, post, by simp⟩

/-- Every match reported by the generic scan occurs in the scanned text,
provided the matcher only ever splits its input. -/
theorem scanAux_occurs (tryAt : Option Char → Str → Option (Str × Str))
    (hsplit : ∀ prev s m after, tryAt prev s = some (m, after) → s = m ++ after) :
    ∀ fuel prev s m, m ∈ scanAux tryAt fuel prev s → OccursIn s m := by
  intro fuel
  induction fuel with
  | zero =>
    intro prev s m h
    simp [scanAux] at h
  | succ f ih =>
    intro prev s m h
    cases s with
    | nil => simp [scanAux] at h
    | cons c cs =>
      rw [scanAux] at h
      cases htry : tryAt prev (c :: cs) with
      | some r =>
        obtain ⟨m0, after⟩ := r
        rw [htry] at h
        rcases List.mem_cons.mp h with rfl | h'
        · exact occursIn_of_eq_append _ _ _ (hsplit prev (c :: cs) m after htry)
        · have hocc := ih _ _ _ h'
          have hs := hsplit prev (c :: cs) m0 after htry
          rw [hs]
          exact occursIn_append_left _ _ _ hocc
      | none =>
        rw [htry] at h
        exact occursIn_cons c cs m (ih _ _ _ h)

/-- Every success of the phone matcher is a take/drop split of the input. -/
theorem tryPhone_shape (prev : Option Char) (s m after : Str)
    (h : tryPhone prev s = some (m, after)) :
    ∃ k, m = s.take k ∧ after = s.drop k := by
  simp only [tryPhone] at h
  repeat' split at h
  all_goals
    first
      | (rw [Option.some_inj] at h
         exact ⟨_, (congrArg Prod.fst h).symm, (congrArg Prod.snd h).symm⟩)
      | exact absurd h (by simp)

/-- The phone matcher splits its input. -/
theorem tryPhone_consumes (prev : Option Char) (s m after : Str)
    (h : tryPhone prev s = some (m, after)) : s = m ++ after := by
  obtain ⟨k, rfl, rfl⟩ := tryPhone_shape prev s m after h
  exact (List.take_append_drop k s).symm

/-- Every phone match is nonempty and consists solely of phone-class
characters and plus signs (in particular it contains no ASCII letters). -/
theorem tryPhone_chars (prev : Option Char) (s m after : Str)
    (h : tryPhone prev s = some (m, after)) :
    m ≠ [] ∧ ∀ c ∈ m, (phoneChar c || c = '+') = true := by
  have hdig : ∀ t : Nat, 10 ≤ t → t ≤ (s.takeWhile isDigitChar).length →
      ∀ m', m' = s.take t → m' ≠ [] ∧ ∀ c ∈ m', (phoneChar c || c = '+') = true := by
    intro t h10 hle m' hm'
    subst hm'
    constructor
    · intro hnil
      rcases List.take_eq_nil_iff.mp hnil with h0 | h0
      · omega
      · rw [h0] at hle
        simp only [List.takeWhile_nil, List.length_nil] at hle
        omega
    · intro c hc
      have hd := mem_take_of_le_takeWhile isDigitChar s t hle c hc
      simp [phoneChar, hd]
  simp only [tryPhone] at h
  split at h
  next hplus =>
    obtain ⟨s', rfl⟩ : ∃ s', s = '+' :: s' := by
      cases s with
      | nil => simp at hplus
      | cons a as =>
        simp only [List.head?_cons, Option.some_inj] at hplus
        exact ⟨as, by rw [hplus]⟩
    split at h
    next h10 =>
      rw [Option.some_inj] at h
      have hm : m = '+' :: List.takeWhile phoneChar s' := by
        have h1 := (congrArg Prod.fst h).symm
        simp only [List.drop_succ_cons, List.drop_zero] at h1
        rw [h1, Nat.add_comm, List.take_succ_cons, take_takeWhile]
      constructor
      · rw [hm]
        simp
      · intro c hc
        rw [hm] at hc
        rcases List.mem_cons.mp hc with rfl | hc'
        · simp
        · have hp := mem_takeWhile_pred phoneChar s' c hc'
          simp [hp]
    next =>
      split at h
      next =>
        split at h
        next t heq =>
          rw [Option.some_inj] at h
          obtain ⟨hp, hle⟩ := searchDown_some _ _ _ heq
          simp only [Bool.and_eq_true, decide_eq_true_eq] at hp
          exact hdig t hp.1 hle m (congrArg Prod.fst h).symm
        next => simp at h
      next => simp at h
  next hplus =>
    split at h
    next h10 =>
      rw [Option.some_inj] at h
      have hm : m = List.takeWhile phoneChar s := by
        have h1 := (congrArg Prod.fst h).symm
        simp only [List.drop_zero, Nat.zero_add] at h1
        rw [h1, take_takeWhile]
      constructor
      · intro hnil
        rw [hm] at hnil
        simp only [List.drop_zero] at h10
        rw [hnil] at h10
        simp at h10
      · intro c hc
        rw [hm] at hc
        have hp := mem_takeWhile_pred phoneChar s c hc
        simp [hp]
    next =>
      split at h
      next =>
        split at h
        next t heq =>
          rw [Option.some_inj] at h
          obtain ⟨hp, hle⟩ := searchDown_some _ _ _ heq
          simp only [Bool.and_eq_true, decide_eq_true_eq] at hp
          exact hdig t hp.1 hle m (congrArg Prod.fst h).symm
        next => simp at h
      next => simp at h

/-- Any property guaranteed by the matcher on success holds of every match the
scan reports. -/
theorem scanAux_prop (tryAt : Option Char → Str → Option (Str × Str)) (P : Str → Prop)
    (hP : ∀ prev s m after, tryAt prev s = some (m, after) → P m) :
    ∀ fuel prev s m, m ∈ scanAux tryAt fuel prev s → P m := by
  intro fuel
  induction fuel with
  | zero =>
    intro prev s m h
    simp [scanAux] at h
  | succ f ih =>
    intro prev s m h
    cases s with
    | nil => simp [scanAux] at h
    | cons c cs =>
      rw [scanAux] at h
      cases htry : tryAt prev (c :: cs) with
      | some r =>
        obtain ⟨m0, after⟩ := r
        rw [htry] at h
        rcases List.mem_cons.mp h with rfl | h'
        · exact hP prev (c :: cs) m after htry
        · exact ih _ _ _ h'
      | none =>
        rw [htry] at h
        exact ih _ _ _ h

/-- The formatted token returned by `generateToken` always starts with 'N',
'E', 'P' (a type tag) or 'u' ("undefined"). -/
theorem generateToken_head (v : Str) (ty : PiiType) (s : VaultState) :
    (generateToken v ty s).1.head? = some 'N' ∨ (generateToken v ty s).1.head? = some 'E' ∨
    (generateToken v ty s).1.head? = some 'P' ∨ (generateToken v ty s).1.head? = some 'u' := by
  cases h : lookupFwd s (jsToLower v) with
  | some tk =>
    rw [generateToken_cacheHit s v ty tk h]
    cases ho : (lookupRev s tk).map Prod.snd with
    | none => simp [typeTagOpt]
    | some ty' => cases ty' <;> simp [typeTagOpt, typeTag]
  | none =>
    simp only [generateToken, h]
    cases hdb : (if s.dbConnected then findByValue s.db (jsToLower v) else none) with
    | some doc =>
      simp only [hdb]
      cases doc.ty <;> simp [typeTag]
    | none =>
      simp only [hdb]
      cases ty <;> simp [typeTag]

/-- Replacing an occurring pattern by a different string changes the text. -/
theorem replaceFirst_ne (text pat rep : Str) (hocc : OccursIn text pat)
    (hne : rep ≠ pat) : replaceFirst text pat rep ≠ text := by
  induction text with
  | nil =>
    obtain ⟨pre, post, hdec⟩ := hocc
    have hp : pat = [] := by
      rcases List.append_eq_nil.mp (List.append_eq_nil.mp hdec.symm).1 with ⟨_, h2⟩
      exact h2
    rw [replaceFirst, if_pos hp]
    rw [hp] at hne
    exact hne
  | cons d ds ih =>
    by_cases hp : pat.isPrefixOf (d :: ds)
    · rw [replaceFirst, if_pos hp]
      intro heq
      obtain ⟨t, ht⟩ := (isPrefixOf_iff_exists pat (d :: ds)).mp hp
      have hdrop : (d :: ds).drop pat.length = t := by
        rw [← ht, List.drop_left]
      rw [hdrop, ← ht] at heq
      exact hne (List.append_cancel_right heq)
    · rw [replaceFirst, if_neg hp]
      intro heq
      injection heq with _ h2
      obtain ⟨pre, post, hdec⟩ := hocc
      cases pre with
      | nil =>
        exact hp ((isPrefixOf_iff_exists pat (d :: ds)).mpr ⟨post, by simpa using hdec.symm⟩)
      | cons e pre' =>
        have hds : ds = pre' ++ pat ++ post := by
          have htl := congrArg List.tail hdec
          simpa using htl
        exact ih ⟨pre', post, hds⟩ h2

/-! ## Claim C5 -/

/-- C5: a candidate matched by the phone pattern is replaced by a token if and
only if its digits-only length lies in [7, 15] (`isValidPhone`); a failing
candidate leaves the text — and the whole state — completely untouched.  The
"replaced" direction shows the processed text genuinely differs from the input
text in which the candidate occurs. -/
theorem C5_phone_digit_validation (text : Str) (s : VaultState) (c : Str)
    (hc : c ∈ phoneMatches text) :
    ((stepPhone (text, s) c).1 ≠ text ↔
      7 ≤ (c.filter isDigitChar).length ∧ (c.filter isDigitChar).length ≤ 15) ∧
    (∀ acc : Str × VaultState,
      ¬(7 ≤ (c.filter isDigitChar).length ∧ (c.filter isDigitChar).length ≤ 15) →
        stepPhone acc c = acc) := by
  have hval : isValidPhone c = true ↔
      7 ≤ (c.filter isDigitChar).length ∧ (c.filter isDigitChar).length ≤ 15 := by
    simp [isValidPhone]
  have hinvalid : ∀ acc : Str × VaultState, isValidPhone c = false → stepPhone acc c = acc := by
    intro acc hv
    simp [stepPhone, hv]
  have hforward : isValidPhone c = true → (stepPhone (text, s) c).1 ≠ text := by
    intro hv
    have hocc : OccursIn text c :=
      scanAux_occurs tryPhone tryPhone_consumes _ _ _ _ hc
    have hchars : c ≠ [] ∧ ∀ ch ∈ c, (phoneChar ch || ch = '+') = true :=
      scanAux_prop tryPhone _
        (fun prev s m after h => tryPhone_chars prev s m after h) _ _ _ _ hc
    simp only [stepPhone, hv, if_true]
    have htokne : (generateToken c .PHONE s).1 ≠ c := by
      intro heq
      obtain ⟨ch, c', rfl⟩ : ∃ ch c', c = ch :: c' := by
        cases c with
        | nil => exact absurd rfl hchars.1
        | cons ch c' => exact ⟨ch, c', rfl⟩
      have hch := hchars.2 ch (List.mem_cons_self _ _)
      have hhead := generateToken_head (ch :: c') .PHONE s
      rcases hhead with hh | hh | hh | hh <;>
        · rw [heq, List.head?_cons, Option.some_inj] at hh
          subst hh
          exact absurd hch (by decide)
    exact replaceFirst_ne text c _ hocc htokne
  constructor
  · constructor
    · intro hne
      by_contra hdig
      have hv : isValidPhone c = false := by
        cases hbool : isValidPhone c with
        | true => exact absurd (hval.mp hbool) hdig
        | false => rfl
      rw [hinvalid (text, s) hv] at hne
      exact hne rfl
    · intro hdig
      exact hforward (hval.mpr hdig)
  · intro acc hdig
    have hv : isValidPhone c = false := by
      cases hbool : isValidPhone c with
      | true => exact absurd (hval.mp hbool) hdig
      | false => rfl
    exact hinvalid acc hv

/-- Witness for C5 at a concrete input: the match " 5551234567 " (the scanner
includes the adjacent whitespace) has ten digits, so it is tokenized. -/
theorem C5_phone_digit_validation_witness :
    ((" 5551234567 ".toList) ∈ phoneMatches ("call 5551234567 now".toList)) ∧
    (((stepPhone (("call 5551234567 now".toList), emptyState) (" 5551234567 ".toList)).1 ≠
        ("call 5551234567 now".toList) ↔
      7 ≤ ((" 5551234567 ".toList).filter isDigitChar).length ∧
        ((" 5551234567 ".toList).filter isDigitChar).length ≤ 15) ∧
     ∀ acc : Str × VaultState,
       ¬(7 ≤ ((" 5551234567 ".toList).filter isDigitChar).length ∧
           ((" 5551234567 ".toList).filter isDigitChar).length ≤ 15) →
         stepPhone acc (" 5551234567 ".toList) = acc) :=
  ⟨by decide,
   C5_phone_digit_validation ("call 5551234567 now".toList) emptyState
     (" 5551234567 ".toList) (by decide)⟩

/-! ### Lowercase invariants (for C10) -/

theorem map_eq_self_mem {α : Type} (f : α → α) (l : List α) (h : l.map f = l) :
    ∀ a ∈ l, f a = a := by
  induction l with
  | nil => intro a ha; simp at ha
  | cons c cs ih =>
    rw [List.map_cons] at h
    injection h with h1 h2
    intro a ha
    rcases List.mem_cons.mp ha with rfl | ha'
    · exact h1
    · exact ih h2 a ha'

theorem generateToken_lower (v : Str) (ty : PiiType) (s : VaultState)
    (hrev : LowerRev s) (hdb : LowerDb s.db) :
    LowerRev (generateToken v ty s).2 ∧ LowerDb (generateToken v ty s).2.db := by
  cases h : lookupFwd s (jsToLower v) with
  | some tk =>
    rw [generateToken_cacheHit s v ty tk h]
    exact ⟨hrev, hdb⟩
  | none =>
    simp only [generateToken, h]
    cases hdbq : (if s.dbConnected then findByValue s.db (jsToLower v) else none) with
    | some doc =>
      simp only [hdbq]
      refine ⟨?_, hdb⟩
      intro t w ty' hl
      simp only [lookupRev] at hl
      by_cases ht : t = doc.token
      · subst ht
        rw [lookupA_set_self] at hl
        obtain ⟨h1, _⟩ := Prod.mk.injEq .. ▸ Option.some_inj.mp hl
        rw [← h1, jsToLower_idem]
      · rw [lookupA_set_ne _ _ _ _ ht] at hl
        exact hrev t w ty' hl
    | none =>
      simp only [hdbq]
      constructor
      · intro t w ty' hl
        simp only [lookupRev] at hl
        by_cases ht : t = shaToken (jsToLower v)
        · subst ht
          rw [lookupA_set_self] at hl
          obtain ⟨h1, _⟩ := Prod.mk.injEq .. ▸ Option.some_inj.mp hl
          rw [← h1, jsToLower_idem]
        · rw [lookupA_set_ne _ _ _ _ ht] at hl
          exact hrev t w ty' hl
      · intro r hr
        by_cases hc : s.dbConnected
        · rw [if_pos hc] at hr
          unfold saveToken at hr
          split at hr
          · exact hdb r hr
          · rcases List.mem_append.mp hr with hold | hnew
            · exact hdb r hold
            · simp only [List.mem_singleton] at hnew
              subst hnew
              exact jsToLower_idem _
        · rw [if_neg hc] at hr
          exact hdb r hr

theorem resolveToken_lower (s : VaultState) (tk : Str)
    (hrev : LowerRev s) (hdb : LowerDb s.db) :
    LowerRev (resolveToken s tk).2 ∧ LowerDb (resolveToken s tk).2.db ∧
    (∀ v ty, (resolveToken s tk).1 = some (v, ty) → jsToLower v = v) := by
  unfold resolveToken
  cases h : lookupRev s tk with
  | some d =>
    refine ⟨hrev, hdb, ?_⟩
    intro v ty hv
    rw [Option.some_inj] at hv
    subst hv
    exact hrev tk v ty (by rw [h])
  | none =>
    by_cases hc : s.dbConnected
    · rw [if_pos hc]
      cases hf : findByToken s.db tk with
      | some doc =>
        have hmem : doc ∈ s.db := List.mem_of_find?_eq_some hf
        have hlow : jsToLower doc.originalValue = doc.originalValue := hdb doc hmem
        refine ⟨?_, ?_, ?_⟩
        · intro t w ty' hl
          simp only [lookupRev] at hl
          by_cases ht : t = tk
          · subst ht
            rw [lookupA_set_self] at hl
            obtain ⟨h1, _⟩ := Prod.mk.injEq .. ▸ Option.some_inj.mp hl
            rw [← h1, hlow]
          · rw [lookupA_set_ne _ _ _ _ ht] at hl
            exact hrev t w ty' hl
        · intro r hr
          simp only [bumpUsage] at hr
          rw [List.mem_map] at hr
          obtain ⟨r0, hr0, hrr⟩ := hr
          by_cases hb : r0.token = tk
          · rw [if_pos hb] at hrr
            subst hrr
            exact hdb r0 hr0
          · rw [if_neg hb] at hrr
            subst hrr
            exact hdb r0 hr0
        · intro v ty hv
          rw [Option.some_inj] at hv
          obtain ⟨h1, _⟩ := Prod.mk.injEq .. ▸ hv.symm
          rw [h1]
          exact hlow
      | none => exact ⟨hrev, hdb, by simp⟩
    · rw [if_neg hc]
      exact ⟨hrev, hdb, by simp⟩

theorem stepDeanon_lower (acc : Str × VaultState) (m : Str)
    (h1 : LowerRev acc.2) (h2 : LowerDb acc.2.db) :
    LowerRev (stepDeanon acc m).2 ∧ LowerDb (stepDeanon acc m).2.db := by
  unfold stepDeanon
  cases he : extractToken m with
  | none => exact ⟨h1, h2⟩
  | some tk =>
    obtain ⟨ha, hb, _⟩ := resolveToken_lower acc.2 tk h1 h2
    rcases hr : resolveToken acc.2 tk with ⟨od, s'⟩
    rw [hr] at ha hb
    simp only [hr]
    cases od with
    | some d => exact ⟨ha, hb⟩
    | none => exact ⟨ha, hb⟩

theorem deanonymizeMessage_lower (msg : Str) (s : VaultState)
    (hrev : LowerRev s) (hdb : LowerDb s.db) :
    LowerRev (deanonymizeMessage msg s).2 ∧ LowerDb (deanonymizeMessage msg s).2.db := by
  unfold deanonymizeMessage
  have haux : ∀ (ms : List Str) (acc : Str × VaultState),
      LowerRev acc.2 → LowerDb acc.2.db →
      LowerRev (ms.foldl stepDeanon acc).2 ∧ LowerDb (ms.foldl stepDeanon acc).2.db := by
    intro ms
    induction ms with
    | nil =>
      intro acc h1 h2
      exact ⟨h1, h2⟩
    | cons m ms ih =>
      intro acc h1 h2
      rw [List.foldl_cons]
      obtain ⟨ha, hb⟩ := stepDeanon_lower acc m h1 h2
      exact ih _ ha hb
  exact haux (tokenMatches msg) (msg, s) hrev hdb

theorem loadTokensIntoCache_lower (s : VaultState)
    (hrev : LowerRev s) (hdb : LowerDb s.db) :
    LowerRev (loadTokensIntoCache s) ∧ LowerDb (loadTokensIntoCache s).db := by
  unfold loadTokensIntoCache
  by_cases hc : s.dbConnected
  · rw [if_pos hc]
    have haux : ∀ (docs : List TokenRec) (acc : VaultState),
        (∀ d ∈ docs, jsToLower d.originalValue = d.originalValue) →
        LowerRev acc → LowerDb acc.db →
        LowerRev (docs.foldl
          (fun acc doc =>
            { acc with
              tokenCache := setA acc.tokenCache doc.originalValue doc.token,
              reverseTokenCache :=
                setA acc.reverseTokenCache doc.token (doc.originalValue, doc.ty) }) acc) ∧
        LowerDb ((docs.foldl
          (fun acc doc =>
            { acc with
              tokenCache := setA acc.tokenCache doc.originalValue doc.token,
              reverseTokenCache :=
                setA acc.reverseTokenCache doc.token (doc.originalValue, doc.ty) }) acc)).db := by
      intro docs
      induction docs with
      | nil =>
        intro acc _ h1 h2
        exact ⟨h1, h2⟩
      | cons doc docs ih =>
        intro acc hdocs h1 h2
        rw [List.foldl_cons]
        apply ih _ fun d hd => hdocs d (List.mem_cons_of_mem _ hd)
        · intro t w ty' hl
          simp only [lookupRev] at hl
          by_cases ht : t = doc.token
          · subst ht
            rw [lookupA_set_self] at hl
            obtain ⟨hw, _⟩ := Prod.mk.injEq .. ▸ Option.some_inj.mp hl
            rw [← hw]
            exact hdocs doc (List.mem_cons_self _ _)
          · rw [lookupA_set_ne _ _ _ _ ht] at hl
            exact h1 t w ty' hl
        · exact h2
    exact haux s.db s hdb hrev hdb
  · rw [if_neg hc]
    exact ⟨hrev, hdb⟩

theorem runOp_lower (s : VaultState) (op : VaultOp)
    (hrev : LowerRev s) (hdb : LowerDb s.db) :
    LowerRev (runOp s op) ∧ LowerDb (runOp s op).db := by
  cases op with
  | gen v ty => exact generateToken_lower v ty s hrev hdb
  | deanon m => exact deanonymizeMessage_lower m s hrev hdb
  | load => exact loadTokensIntoCache_lower s hrev hdb

theorem runOps_lower (ops : List VaultOp) (s : VaultState)
    (hrev : LowerRev s) (hdb : LowerDb s.db) :
    LowerRev (runOps ops s) ∧ LowerDb (runOps ops s).db := by
  induction ops generalizing s with
  | nil => exact ⟨hrev, hdb⟩
  | cons op ops ih =>
    rw [runOps, List.foldl_cons]
    obtain ⟨h1, h2⟩ := runOp_lower s op hrev hdb
    exact ih _ h1 h2

/-! ## Claim C10 -/

/-- C10: in any state reached from a fresh cache over a store whose values are
lowercase (as all stored values are: the service persists only normalized
values), every value that token resolution produces during deanonymization —
the text substituted in place of a token — is a fixed point of lowercasing,
and therefore contains no character with an uppercase/lowercase case pair. -/
theorem C10_substituted_values_lowercase (ops : List VaultOp) (db0 : List TokenRec)
    (conn : Bool) (hdb : LowerDb db0) (b v : Str) (ty : PiiType)
    (h : (resolveToken (runOps ops ⟨[], [], db0, conn⟩) b).1 = some (v, ty)) :
    jsToLower v = v ∧ ∀ c ∈ v, casePairs.lookup c = none := by
  have hinit : LowerRev (⟨[], [], db0, conn⟩ : VaultState) := by
    intro t w ty' hl
    simp [lookupRev, lookupA] at hl
  obtain ⟨hrev', hdb'⟩ := runOps_lower ops ⟨[], [], db0, conn⟩ hinit hdb
  obtain ⟨_, _, hres⟩ := resolveToken_lower (runOps ops ⟨[], [], db0, conn⟩) b hrev' hdb'
  have hfix : jsToLower v = v := hres v ty h
  refine ⟨hfix, ?_⟩
  intro c hcmem
  have hpoint : jsLowerChar c = c := map_eq_self_mem jsLowerChar v hfix c hcmem
  cases hl : casePairs.lookup c with
  | none => rfl
  | some l =>
    have hlc : l = c := by
      unfold jsLowerChar at hpoint
      rw [hl] at hpoint
      simpa using hpoint
    obtain ⟨k', hm, he⟩ := lookup_mem_pairs _ _ _ hl
    have hck : c = k' := eq_of_beq he
    have hne : ∀ p ∈ casePairs, p.1 ≠ p.2 := by decide
    exact absurd (by rw [← hck, hlc]) (hne (k', l) hm)

/-- Witness for C10 at a concrete input: after tokenizing "Bob Lee", the
token body resolves to the lowercase "bob lee". -/
theorem C10_substituted_values_lowercase_witness :
    LowerDb ([] : List TokenRec) ∧
    ((resolveToken (runOps [.gen ("Bob Lee".toList) .NAME] ⟨[], [], [], false⟩)
        ("482bc94a".toList)).1 = some (("bob lee".toList), .NAME)) ∧
    (jsToLower ("bob lee".toList) = ("bob lee".toList) ∧
      ∀ c ∈ ("bob lee".toList), casePairs.lookup c = none) :=
  ⟨fun r hr => absurd hr (List.not_mem_nil r), by decide,
   C10_substituted_values_lowercase [.gen ("Bob Lee".toList) .NAME] [] false
     (fun r hr => absurd hr (List.not_mem_nil r)) ("482bc94a".toList)
     ("bob lee".toList) .NAME (by decide)⟩

/-- Witness for C7 at a concrete input: requesting "Ana" as a NAME returns the
EMAIL-formatted cached token. -/
theorem C7_stored_type_wins_witness :
    (lookupFwd mismatchState (jsToLower ("Ana".toList)) = some ("24d4b96f".toList)) ∧
    (lookupRev mismatchState ("24d4b96f".toList) = some (("ana".toList), .EMAIL)) ∧
    (PiiType.EMAIL ≠ PiiType.NAME) ∧
    generateToken ("Ana".toList) .NAME mismatchState =
      (typeTag .EMAIL ++ '_' :: ("24d4b96f".toList), mismatchState) :=
  ⟨by decide, by decide, by decide,
   C7_stored_type_wins mismatchState ("Ana".toList) ("24d4b96f".toList) ("ana".toList)
     .NAME .EMAIL (by decide) (by decide) (by decide)⟩

/-! ### Cache coherence (for C9) -/

/-- Updating both caches with the matched pair `(w0, shaToken w0)` preserves
mutual consistency and well-formedness, provided no distinct processed values
share a truncated digest. -/
theorem pair_update_invariants (tc : List (Str × Str)) (rc : List (Str × (Str × PiiType)))
    (V : List Str) (hinj : InjOnVals V)
    (hco1 : ∀ v t, lookupA tc v = some t → ∃ w ty, lookupA rc t = some (w, ty) ∧ w = v)
    (hco2 : ∀ t w ty, lookupA rc t = some (w, ty) → lookupA tc w = some t)
    (hv1 : ∀ v t, lookupA tc v = some t → t = shaToken v ∧ v ∈ V)
    (hv2 : ∀ t w ty, lookupA rc t = some (w, ty) → t = shaToken w ∧ w ∈ V)
    (w0 : Str) (ty0 : PiiType) (hw0 : w0 ∈ V) :
    (∀ v t, lookupA (setA tc w0 (shaToken w0)) v = some t →
      ∃ w ty, lookupA (setA rc (shaToken w0) (w0, ty0)) t = some (w, ty) ∧ w = v) ∧
    (∀ t w ty, lookupA (setA rc (shaToken w0) (w0, ty0)) t = some (w, ty) →
      lookupA (setA tc w0 (shaToken w0)) w = some t) ∧
    (∀ v t, lookupA (setA tc w0 (shaToken w0)) v = some t → t = shaToken v ∧ v ∈ V) ∧
    (∀ t w ty, lookupA (setA rc (shaToken w0) (w0, ty0)) t = some (w, ty) →
      t = shaToken w ∧ w ∈ V) := by
  refine ⟨?_, ?_, ?_, ?_⟩
  · intro v t h
    by_cases hv : v = w0
    · subst hv
      rw [lookupA_set_self] at h
      have ht := Option.some_inj.mp h
      exact ⟨v, ty0, by rw [← ht, lookupA_set_self], rfl⟩
    · rw [lookupA_set_ne _ _ _ _ hv] at h
      obtain ⟨hsha, hmem⟩ := hv1 v t h
      have hts : t ≠ shaToken w0 := by
        intro he
        exact hv (hinj v hmem w0 hw0 (by rw [← hsha, he]))
      obtain ⟨w, ty, hl, hwv⟩ := hco1 v t h
      exact ⟨w, ty, by rw [lookupA_set_ne _ _ _ _ hts]; exact hl, hwv⟩
  · intro t w ty h
    by_cases ht : t = shaToken w0
    · subst ht
      rw [lookupA_set_self] at h
      obtain ⟨hw, _⟩ := Prod.mk.injEq .. ▸ Option.some_inj.mp h
      rw [← hw, lookupA_set_self]
    · rw [lookupA_set_ne _ _ _ _ ht] at h
      have h2 := hco2 t w ty h
      obtain ⟨hsha, _⟩ := hv2 t w ty h
      have hwne : w ≠ w0 := by
        intro he
        exact ht (by rw [hsha, he])
      rw [lookupA_set_ne _ _ _ _ hwne]
      exact h2
  · intro v t h
    by_cases hv : v = w0
    · subst hv
      rw [lookupA_set_self] at h
      exact ⟨(Option.some_inj.mp h).symm, hw0⟩
    · rw [lookupA_set_ne _ _ _ _ hv] at h
      exact hv1 v t h
  · intro t w ty h
    by_cases ht : t = shaToken w0
    · subst ht
      rw [lookupA_set_self] at h
      obtain ⟨hw, _⟩ := Prod.mk.injEq .. ▸ Option.some_inj.mp h
      exact ⟨by rw [← hw], by rw [← hw]; exact hw0⟩
    · rw [lookupA_set_ne _ _ _ _ ht] at h
      exact hv2 t w ty h

theorem generateToken_coherent (v : Str) (ty : PiiType) (s : VaultState) (V : List Str)
    (hinj : InjOnVals V) (hK : Coherent s ∧ CacheVals s V) (hv : jsToLower v ∈ V) :
    Coherent (generateToken v ty s).2 ∧ CacheVals (generateToken v ty s).2 V := by
  obtain ⟨⟨hco1, hco2⟩, hv1, hv2, hv3⟩ := hK
  cases h : lookupFwd s (jsToLower v) with
  | some tk =>
    rw [generateToken_cacheHit s v ty tk h]
    exact ⟨⟨hco1, hco2⟩, hv1, hv2, hv3⟩
  | none =>
    simp only [generateToken, h]
    cases hdbq : (if s.dbConnected then findByValue s.db (jsToLower v) else none) with
    | some doc =>
      have hmem : doc ∈ s.db ∧ doc.originalValue = jsToLower v := by
        by_cases hc : s.dbConnected
        · rw [if_pos hc] at hdbq
          refine ⟨List.mem_of_find?_eq_some hdbq, ?_⟩
          have := List.find?_some hdbq
          simp only [decide_eq_true_eq] at this
          rw [this, jsToLower_idem]
        · rw [if_neg hc] at hdbq
          exact absurd hdbq (by simp)
      have htok : doc.token = shaToken (jsToLower v) := by
        rw [(hv3 doc hmem.1).1, hmem.2]
      simp only [hdbq, htok]
      obtain ⟨p1, p2, p3, p4⟩ :=
        pair_update_invariants s.tokenCache s.reverseTokenCache V hinj hco1 hco2 hv1 hv2
          (jsToLower v) doc.ty hv
      exact ⟨⟨p1, p2⟩, p3, p4, hv3⟩
    | none =>
      simp only [hdbq]
      obtain ⟨p1, p2, p3, p4⟩ :=
        pair_update_invariants s.tokenCache s.reverseTokenCache V hinj hco1 hco2 hv1 hv2
          (jsToLower v) ty hv
      refine ⟨⟨p1, p2⟩, p3, p4, ?_⟩
      intro r hr
      simp only at hr
      by_cases hc : s.dbConnected
      · rw [if_pos hc] at hr
        unfold saveToken at hr
        split at hr
        · exact hv3 r hr
        · rcases List.mem_append.mp hr with hold | hnew
          · exact hv3 r hold
          · simp only [List.mem_singleton] at hnew
            subst hnew
            exact ⟨rfl, hv⟩
      · rw [if_neg hc] at hr
        exact hv3 r hr

theorem resolveToken_coherent (s : VaultState) (tk : Str) (V : List Str)
    (hinj : InjOnVals V) (hK : Coherent s ∧ CacheVals s V) :
    Coherent (resolveToken s tk).2 ∧ CacheVals (resolveToken s tk).2 V := by
  obtain ⟨⟨hco1, hco2⟩, hv1, hv2, hv3⟩ := hK
  unfold resolveToken
  cases h : lookupRev s tk with
  | some d => exact ⟨⟨hco1, hco2⟩, hv1, hv2, hv3⟩
  | none =>
    by_cases hc : s.dbConnected
    · rw [if_pos hc]
      cases hf : findByToken s.db tk with
      | some doc =>
        have hmem : doc ∈ s.db := List.mem_of_find?_eq_some hf
        have htk : doc.token = tk := by
          have := List.find?_some hf
          simpa using this
        obtain ⟨hsha, hvmem⟩ := hv3 doc hmem
        have htk2 : tk = shaToken doc.originalValue := by rw [← htk, hsha]
        obtain ⟨p1, p2, p3, p4⟩ :=
          pair_update_invariants s.tokenCache s.reverseTokenCache V hinj hco1 hco2 hv1 hv2
            doc.originalValue doc.ty hvmem
        rw [htk2]
        refine ⟨⟨p1, p2⟩, p3, p4, ?_⟩
        intro r hr
        simp only [bumpUsage] at hr
        rw [List.mem_map] at hr
        obtain ⟨r0, hr0, hrr⟩ := hr
        by_cases hb : r0.token = shaToken doc.originalValue
        · rw [if_pos hb] at hrr
          subst hrr
          exact hv3 r0 hr0
        · rw [if_neg hb] at hrr
          subst hrr
          exact hv3 r0 hr0
      | none => exact ⟨⟨hco1, hco2⟩, hv1, hv2, hv3⟩
    · rw [if_neg hc]
      exact ⟨⟨hco1, hco2⟩, hv1, hv2, hv3⟩

theorem stepDeanon_coherent (acc : Str × VaultState) (m : Str) (V : List Str)
    (hinj : InjOnVals V) (hK : Coherent acc.2 ∧ CacheVals acc.2 V) :
    Coherent (stepDeanon acc m).2 ∧ CacheVals (stepDeanon acc m).2 V := by
  unfold stepDeanon
  cases he : extractToken m with
  | none => exact hK
  | some tk =>
    have hres := resolveToken_coherent acc.2 tk V hinj hK
    rcases hr : resolveToken acc.2 tk with ⟨od, s'⟩
    rw [hr] at hres
    simp only [hr]
    cases od with
    | some d => exact hres
    | none => exact hres

theorem deanonymizeMessage_coherent (msg : Str) (s : VaultState) (V : List Str)
    (hinj : InjOnVals V) (hK : Coherent s ∧ CacheVals s V) :
    Coherent (deanonymizeMessage msg s).2 ∧ CacheVals (deanonymizeMessage msg s).2 V := by
  unfold deanonymizeMessage
  have haux : ∀ (ms : List Str) (acc : Str × VaultState),
      Coherent acc.2 ∧ CacheVals acc.2 V →
      Coherent (ms.foldl stepDeanon acc).2 ∧ CacheVals (ms.foldl stepDeanon acc).2 V := by
    intro ms
    induction ms with
    | nil => intro acc h; exact h
    | cons m ms ih =>
      intro acc h
      rw [List.foldl_cons]
      exact ih _ (stepDeanon_coherent acc m V hinj h)
  exact haux (tokenMatches msg) (msg, s) hK

theorem loadTokensIntoCache_coherent (s : VaultState) (V : List Str)
    (hinj : InjOnVals V) (hK : Coherent s ∧ CacheVals s V) :
    Coherent (loadTokensIntoCache s) ∧ CacheVals (loadTokensIntoCache s) V := by
  unfold loadTokensIntoCache
  by_cases hc : s.dbConnected
  · rw [if_pos hc]
    have haux : ∀ (docs : List TokenRec) (acc : VaultState),
        (∀ d ∈ docs, d.token = shaToken d.originalValue ∧ d.originalValue ∈ V) →
        Coherent acc ∧ CacheVals acc V →
        Coherent (docs.foldl
          (fun acc doc =>
            { acc with
              tokenCache := setA acc.tokenCache doc.originalValue doc.token,
              reverseTokenCache :=
                setA acc.reverseTokenCache doc.token (doc.originalValue, doc.ty) }) acc) ∧
        CacheVals ((docs.foldl
          (fun acc doc =>
            { acc with
              tokenCache := setA acc.tokenCache doc.originalValue doc.token,
              reverseTokenCache :=
                setA acc.reverseTokenCache doc.token (doc.originalValue, doc.ty) }) acc)) V := by
      intro docs
      induction docs with
      | nil => intro acc _ h; exact h
      | cons doc docs ih =>
        intro acc hdocs h
        obtain ⟨⟨hco1, hco2⟩, hv1, hv2, hv3⟩ := h
        obtain ⟨hsha, hvmem⟩ := hdocs doc (List.mem_cons_self _ _)
        rw [List.foldl_cons]
        apply ih _ fun d hd => hdocs d (List.mem_cons_of_mem _ hd)
        obtain ⟨p1, p2, p3, p4⟩ :=
          pair_update_invariants acc.tokenCache acc.reverseTokenCache V hinj hco1 hco2
            hv1 hv2 doc.originalValue doc.ty hvmem
        rw [hsha]
        exact ⟨⟨p1, p2⟩, p3, p4, hv3⟩
    exact haux s.db s (fun d hd => hK.2.2.2 d hd) hK
  · rw [if_neg hc]
    exact hK

theorem runOps_coherent (V : List Str) (hinj : InjOnVals V) :
    ∀ (ops : List VaultOp) (s : VaultState),
      (∀ op ∈ ops, ∀ w ∈ opValues op, w ∈ V) →
      Coherent s ∧ CacheVals s V →
      Coherent (runOps ops s) ∧ CacheVals (runOps ops s) V := by
  intro ops
  induction ops with
  | nil => intro s _ h; exact h
  | cons op ops ih =>
    intro s hops h
    rw [runOps, List.foldl_cons]
    have hstep : Coherent (runOp s op) ∧ CacheVals (runOp s op) V := by
      cases op with
      | gen v ty =>
        exact generateToken_coherent v ty s V hinj h
          (hops _ (List.mem_cons_self _ _) _ (by simp [opValues]))
      | deanon m => exact deanonymizeMessage_coherent m s V hinj h
      | load => exact loadTokensIntoCache_coherent s V hinj h
    exact ih _ (fun op' hop' => hops op' (List.mem_cons_of_mem _ hop')) hstep

/-! ### Replacement splicing (for C1) -/

theorem replaceFirst_of_isPrefix (s pat rep : Str) (h : pat.isPrefixOf s = true) :
    replaceFirst s pat rep = rep ++ s.drop pat.length := by
  cases s with
  | nil =>
    have hp : pat = [] := by
      cases pat with
      | nil => rfl
      | cons p ps => simp [List.isPrefixOf] at h
    rw [hp, replaceFirst]
    simp
  | cons c cs => rw [replaceFirst, if_pos h]

/-- Replacing `pat` in `pre ++ pat ++ post` when no occurrence starts earlier
splices in the replacement exactly at the seam. -/
theorem replaceFirst_splice (pre pat post rep : Str)
    (h : NoEarlierOcc (pre ++ pat ++ post) pat pre.length) :
    replaceFirst (pre ++ pat ++ post) pat rep = pre ++ rep ++ post := by
  induction pre with
  | nil =>
    simp only [List.nil_append]
    have hp : pat.isPrefixOf (pat ++ post) = true :=
      (isPrefixOf_iff_exists pat (pat ++ post)).mpr ⟨post, rfl⟩
    rw [replaceFirst_of_isPrefix _ _ _ hp, List.drop_left]
  | cons c pre' ih =>
    have h0 : ¬pat.isPrefixOf (c :: (pre' ++ pat ++ post)) = true := by
      have := h 0 (Nat.succ_pos _)
      simpa using this
    have hrest : NoEarlierOcc (pre' ++ pat ++ post) pat pre'.length := by
      intro i hi
      have := h (i + 1) (by simpa using Nat.succ_lt_succ hi)
      simpa using this
    show replaceFirst (c :: (pre' ++ pat ++ post)) pat rep = c :: (pre' ++ rep ++ post)
    rw [replaceFirst, if_neg h0, ih hrest]

/-- `generateToken` on the fresh state mints the digest token and records the
pair in both caches. -/
theorem generateToken_empty (v : Str) (ty : PiiType) (hl : jsToLower v = v) :
    generateToken v ty emptyState =
      (typeTag ty ++ '_' :: shaToken v,
       ⟨[(v, shaToken v)], [(shaToken v, (v, ty))], [], false⟩) := by
  simp [generateToken, emptyState, lookupFwd, lookupA, setA, hl]

/-! ## Claim C1 -/

/-- C1 counterexample: "John" consists of exactly one well-formed capitalized
name, yet the round trip returns "john" — `generateToken` keys the mapping on
the lowercased value and deanonymization substitutes that lowercased value, so
the round trip is not the identity on capitalized names. -/
theorem C1_counterexample :
    (deanonymizeMessage (anonymizeMessage ("John".toList) false emptyState).1
        (anonymizeMessage ("John".toList) false emptyState).2).1 = ("john".toList) ∧
    (deanonymizeMessage (anonymizeMessage ("John".toList) false emptyState).1
        (anonymizeMessage ("John".toList) false emptyState).2).1 ≠ ("John".toList) := by
  refine ⟨by decide, by decide⟩

/-- C1 (amended): the round trip restores the text with each detected value
replaced by its lowercase form, hence it is exact precisely when the detected
values are already lowercase.  Formally: for a text `pre ++ m ++ post` whose
only detection is the email or validated phone candidate `m` (capitalized
names, having an uppercase letter, can never be lowercase), with `m` lowercase,
its first occurrence at the seam, and the minted token the only token-grammar
match of the anonymized text, anonymization produces
`pre ++ TYPE_token ++ post` and deanonymization restores the original text
exactly. -/
theorem C1_roundtrip_lowercase (pre m post : Str) (ty : PiiType)
    (hty : ty ≠ .NAME)
    (hlow : jsToLower m = m)
    (hem : emailMatches (pre ++ m ++ post) = if ty = .EMAIL then [m] else [])
    (hph : phoneMatches (pre ++ m ++ post) = if ty = .PHONE then [m] else [])
    (hphv : ty = .PHONE → isValidPhone m = true)
    (hnm : nameMatches (pre ++ m ++ post) = [])
    (hocc1 : NoEarlierOcc (pre ++ m ++ post) m pre.length)
    (htm : tokenMatches (pre ++ (typeTag ty ++ '_' :: shaToken m) ++ post) =
      [typeTag ty ++ '_' :: shaToken m])
    (hocc2 : NoEarlierOcc (pre ++ (typeTag ty ++ '_' :: shaToken m) ++ post)
      (typeTag ty ++ '_' :: shaToken m) pre.length) :
    (anonymizeMessage (pre ++ m ++ post) false emptyState).1 =
      pre ++ (typeTag ty ++ '_' :: shaToken m) ++ post ∧
    (deanonymizeMessage (anonymizeMessage (pre ++ m ++ post) false emptyState).1
        (anonymizeMessage (pre ++ m ++ post) false emptyState).2).1 =
      pre ++ m ++ post := by
  have hextract : extractToken (typeTag ty ++ '_' :: shaToken m) = some (shaToken m) :=
    extractToken_tagged _ _ (typeTag_no_underscore ty) (shaToken_no_underscore m)
  have hanon : anonymizeMessage (pre ++ m ++ post) false emptyState =
      (pre ++ (typeTag ty ++ '_' :: shaToken m) ++ post,
       ⟨[(m, shaToken m)], [(shaToken m, (m, ty))], [], false⟩) := by
    cases ty with
    | NAME => exact absurd rfl hty
    | EMAIL =>
      rw [if_pos rfl] at hem
      rw [if_neg (by decide)] at hph
      unfold anonymizeMessage
      rw [hem, hph, hnm]
      simp only [List.foldl_cons, List.foldl_nil, Bool.false_eq_true, if_false]
      simp only [stepEmail, generateToken_empty m .EMAIL hlow]
      rw [replaceFirst_splice pre m post _ hocc1]
    | PHONE =>
      rw [if_pos rfl] at hph
      rw [if_neg (by decide)] at hem
      unfold anonymizeMessage
      rw [hem, hph, hnm]
      simp only [List.foldl_cons, List.foldl_nil, Bool.false_eq_true, if_false]
      simp only [stepPhone, hphv rfl, if_true]
      simp only [generateToken_empty m .PHONE hlow]
      rw [replaceFirst_splice pre m post _ hocc1]
  refine ⟨by rw [hanon], ?_⟩
  rw [hanon]
  unfold deanonymizeMessage
  rw [htm, List.foldl_cons, List.foldl_nil]
  have hres : resolveToken
      (⟨[(m, shaToken m)], [(shaToken m, (m, ty))], [], false⟩ : VaultState)
      (shaToken m) =
      (some (m, ty),
       ⟨[(m, shaToken m)], [(shaToken m, (m, ty))], [], false⟩) := by
    simp [resolveToken, lookupRev, lookupA]
  simp only [stepDeanon, hextract, hres]
  exact replaceFirst_splice pre _ post m hocc2

/-- Witness for C1's amended statement at a concrete input: a lowercase email
round-trips exactly. -/
theorem C1_roundtrip_lowercase_witness :
    (jsToLower ("dborda@gmail.com".toList) = ("dborda@gmail.com".toList) ∧
      emailMatches (("contact ".toList) ++ ("dborda@gmail.com".toList) ++ (" now".toList)) =
        [("dborda@gmail.com".toList)]) ∧
    ((anonymizeMessage
        (("contact ".toList) ++ ("dborda@gmail.com".toList) ++ (" now".toList))
        false emptyState).1 =
      ("contact ".toList) ++
        (typeTag .EMAIL ++ '_' :: shaToken ("dborda@gmail.com".toList)) ++ (" now".toList) ∧
     (deanonymizeMessage
        (anonymizeMessage
          (("contact ".toList) ++ ("dborda@gmail.com".toList) ++ (" now".toList))
          false emptyState).1
        (anonymizeMessage
          (("contact ".toList) ++ ("dborda@gmail.com".toList) ++ (" now".toList))
          false emptyState).2).1 =
      ("contact ".toList) ++ ("dborda@gmail.com".toList) ++ (" now".toList)) :=
  ⟨⟨by decide, by decide⟩,
   C1_roundtrip_lowercase ("contact ".toList) ("dborda@gmail.com".toList) (" now".toList)
     .EMAIL (by decide) (by decide) (by decide) (by decide) (by decide) (by decide)
     (by unfold NoEarlierOcc; decide) (by decide) (by unfold NoEarlierOcc; decide)⟩

/-! ## Claim C9 -/

/-- C9 counterexample: the values "ever" and "hgwj" collide on the first eight
hex characters of their SHA-256 digests (both truncate to "63212655").  After
tokenizing both, the forward cache still maps "ever" to that token, but the
reverse cache maps the token back to "hgwj" — the caches are not mutually
consistent as claimed. -/
theorem C9_counterexample :
    lookupFwd (runOps [.gen ("ever".toList) .NAME, .gen ("hgwj".toList) .NAME]
        ⟨[], [], [], false⟩) ("ever".toList) = some ("63212655".toList) ∧
    lookupRev (runOps [.gen ("ever".toList) .NAME, .gen ("hgwj".toList) .NAME]
        ⟨[], [], [], false⟩) ("63212655".toList) = some (("hgwj".toList), .NAME) ∧
    ("ever".toList) ≠ ("hgwj".toList) := by
  refine ⟨by decide, by decide, by decide⟩

/-- C9 (amended): after any sequence of `generateToken`, `deanonymizeMessage`
and `loadTokensIntoCache` operations from a fresh cache over a store whose
tokens are digest-derived, *provided no two of the processed normalized values
collide on the truncated digest*, the two cache maps are mutually consistent:
every forward entry `v ↦ t` has a reverse entry mapping `t` back to `v` (with
some type), and every reverse entry `t ↦ v` has the forward entry `v ↦ t`. -/
theorem C9_cache_coherence (ops : List VaultOp) (db0 : List TokenRec) (conn : Bool)
    (hdb : ∀ r ∈ db0, r.token = shaToken r.originalValue)
    (hinj : InjOnVals (seedValues ops db0)) :
    Coherent (runOps ops ⟨[], [], db0, conn⟩) := by
  have hinit : Coherent (⟨[], [], db0, conn⟩ : VaultState) ∧
      CacheVals (⟨[], [], db0, conn⟩ : VaultState) (seedValues ops db0) := by
    refine ⟨⟨?_, ?_⟩, ?_, ?_, ?_⟩
    · intro v t h
      simp [lookupFwd, lookupA] at h
    · intro t w ty h
      simp [lookupRev, lookupA] at h
    · intro v t h
      simp [lookupFwd, lookupA] at h
    · intro t w ty h
      simp [lookupRev, lookupA] at h
    · intro r hr
      refine ⟨hdb r hr, ?_⟩
      unfold seedValues
      exact List.mem_append.mpr (Or.inl (List.mem_map_of_mem _ hr))
  have hops : ∀ op ∈ ops, ∀ w ∈ opValues op, w ∈ seedValues ops db0 := by
    intro op hop w hw
    unfold seedValues
    refine List.mem_append.mpr (Or.inr ?_)
    rw [List.mem_flatten]
    exact ⟨opValues op, List.mem_map_of_mem _ hop, hw⟩
  exact (runOps_coherent (seedValues ops db0) hinj ops _ hops hinit).1

/-- Witness for C9's amended statement: a short collision-free run is
coherent. -/
theorem C9_cache_coherence_witness :
    (∀ r ∈ ([] : List TokenRec), r.token = shaToken r.originalValue) ∧
    InjOnVals (seedValues [.gen ("alice".toList) .NAME, .deanon ("x".toList), .load] []) ∧
    Coherent (runOps [.gen ("alice".toList) .NAME, .deanon ("x".toList), .load]
      ⟨[], [], [], false⟩) :=
  ⟨fun r hr => absurd hr (List.not_mem_nil r), by unfold InjOnVals; decide,
   C9_cache_coherence [.gen ("alice".toList) .NAME, .deanon ("x".toList), .load] [] false
     (fun r hr => absurd hr (List.not_mem_nil r)) (by unfold InjOnVals; decide)⟩

end Vault

